import Mathlib

/-!
riak-mesos: resource askers and the placement round.

A shallow embedding of `common/utils.go` (the resource-asker algebra:
`AskForScalar`, `ArrayToRanges`, `RangesToArray`, `AskForPorts`), of
`scheduler/scheduler.go` (`spreadNodesAcrossOffers`, `ResourceOffers`,
`GetTasksToReconcile`) and of `executor/riak_node.go` (`portIter`,
`configureRiak`, `Run`).

Conventions of the embedding.

* Go slices are Lean lists; an in-place write `s[i] = v` is `List.set`, and
  `append(s[:i], s[i+1:]...)` is `List.eraseIdx`.
* `float64` scalar values are read as exact rationals.
* `uint64` values are naturals and `int64` values are integers; the
  conversions `int64(_)`, `uint64(_)` and the `int64` addition wrap modulo
  `2^64` exactly as in Go (`toInt64`, `toUInt64`, `wrapInt64`).
* `rand.Intn(n)` is a function of the state of the random source, which is
  passed in as an extra argument.
* The protobuf getters of `mesos.Resource` are nil-safe: a missing field
  reads as the zero value.
* The clock is explicit: `time.Now()` reads the next value of a sequence of
  readings, in nanoseconds.
* A channel with one sender and one receiver is the sequence of values sent;
  a receive takes the next one, or the zero value once the channel is drained
  and closed.
-/

namespace RiakMesos

/-! ## Data model (mesos protobuf messages) -/

/-- The message `mesos.Value_Range`: a closed interval of `uint64`. -/
structure Value_Range where
  Begin : Nat
  End : Nat
deriving DecidableEq, Repr

/-- The enumeration `mesos.Value_Type`. -/
inductive Value_Type where
  | SCALAR
  | RANGES
  | SET
  | TEXT
deriving DecidableEq, Repr

/-- The message `mesos.Resource`, with its optional sub-messages as options. -/
structure Resource where
  Name : String
  Type_ : Value_Type
  Scalar : Option ℚ
  Ranges : Option (List Value_Range)
  Role : Option String
deriving DecidableEq

/-- The getter `GetScalar().GetValue()`: the zero value when the scalar is absent. -/
def Resource.GetScalarValue (r : Resource) : ℚ :=
  r.Scalar.getD 0

/-- The getter `GetRanges().GetRange()`: the nil slice when the ranges are absent. -/
def Resource.GetRangesRange (r : Resource) : List Value_Range :=
  r.Ranges.getD []

/-- The constructor `mesosutil.NewScalarResource`. -/
def NewScalarResource (name : String) (val : ℚ) : Resource :=
  { Name := name, Type_ := Value_Type.SCALAR, Scalar := some val, Ranges := none, Role := none }

/-- The constructor `mesosutil.NewRangesResource`. -/
def NewRangesResource (name : String) (ranges : List Value_Range) : Resource :=
  { Name := name, Type_ := Value_Type.RANGES, Scalar := none, Ranges := some ranges, Role := none }

/-- The constructor `mesosutil.NewValueRange`. -/
def NewValueRange (b e : Nat) : Value_Range :=
  { Begin := b, End := e }

/-- The type `ResourceAsker`: the new resource vector, the ask (absent when it
was not accommodated) and whether the ask was accommodated. -/
abbrev ResourceAsker := List Resource → List Resource × Option Resource × Bool

/-- The type `CombinedResourceAsker`: remaining vector, executor ask, task ask, success. -/
abbrev CombinedResourceAsker :=
  List Resource → List Resource × List Resource × List Resource × Bool

/-! ## Machine integers -/

/-- The conversion `int64(x)` of a `uint64` value. -/
def toInt64 (n : Nat) : Int :=
  if n % 2 ^ 64 < 2 ^ 63 then ((n % 2 ^ 64 : Nat) : Int) else ((n % 2 ^ 64 : Nat) : Int) - 2 ^ 64

/-- The conversion `uint64(x)` of an `int64` value. -/
def toUInt64 (x : Int) : Nat :=
  (x % 2 ^ 64).toNat

/-- The result of an `int64` operation whose exact value is `x`. -/
def wrapInt64 (x : Int) : Int :=
  (x + 2 ^ 63) % 2 ^ 64 - 2 ^ 63

/-- The call `rand.Intn(n)` for `n > 0` when the random source is in state
`rnd`: a value of the half-open interval `[0, n)`, every one of which some
state yields. -/
def Intn (rnd n : Nat) : Nat :=
  rnd % n

/-! ## `AskForScalar` -/

/-- The loop of `AskForScalar` from position `idx` on; `rest` is `resources[idx:]`. -/
def AskForScalar.loop (resourceName : String) (askSize : ℚ) (newResources : List Resource) :
    Nat → List Resource → List Resource × Option Resource × Bool
  | _, [] => (newResources, none, false)
  | idx, resource :: rest =>
    if resource.Name = resourceName ∧ askSize ≤ resource.GetScalarValue then
      (newResources.set idx (NewScalarResource resourceName (resource.GetScalarValue - askSize)),
        some (NewScalarResource resourceName askSize), true)
    else AskForScalar.loop resourceName askSize newResources (idx + 1) rest

/-- The asker `AskForScalar(resourceName, askSize)`. -/
def AskForScalar (resourceName : String) (askSize : ℚ) : ResourceAsker :=
  fun resources =>
    let newResources := resources
    AskForScalar.loop resourceName askSize newResources 0 resources

/-- The asker `AskForCPU`. -/
def AskForCPU (cpuAsk : ℚ) : ResourceAsker := AskForScalar "cpus" cpuAsk

/-- The asker `AskForMemory`. -/
def AskForMemory (memory : ℚ) : ResourceAsker := AskForScalar "mem" memory

/-- The asker `AskForDisk`. -/
def AskForDisk (disk : ℚ) : ResourceAsker := AskForScalar "disk" disk

/-! ## `ArrayToRanges` and `RangesToArray` -/

/-- The call `sort.Sort(intarray(ports))`: the ascending rearrangement. -/
def sortPorts (ports : List Int) : List Int :=
  ports.insertionSort (· ≤ ·)

/-- One iteration of the loop of `ArrayToRanges` over `fakeret`. -/
def ArrayToRanges.step (fakeret : List (Int × Int)) (val : Int) : List (Int × Int) :=
  match fakeret.getLast? with
  | none => fakeret
  | some last =>
    if val > wrapInt64 (last.2 + 1) then fakeret ++ [(val, val)]
    else fakeret.dropLast ++ [(last.1, val)]

/-- The function `ArrayToRanges`. -/
def ArrayToRanges (ports : List Int) : List Value_Range :=
  let ports := sortPorts ports
  match ports with
  | [] => []
  | p0 :: _ =>
    let fakeret := ports.foldl ArrayToRanges.step [(p0, p0)]
    fakeret.map (fun r => NewValueRange (toUInt64 r.1) (toUInt64 r.2))

/-- The slice `temp` that `RangesToArray` builds for one range: `End-Begin+1`
(in `uint64` arithmetic) zero-initialised cells, of which the loop
`for i := Begin; i <= End; i++` fills the leading ones. (For
`End = 2^64 - 1` the Go loop runs past `temp` and panics; the embedding is
exact for every other range.) -/
def RangesToArray.temp (mesosRange : Value_Range) : List Int :=
  let len := (mesosRange.End + 2 ^ 64 - mesosRange.Begin + 1) % 2 ^ 64
  let filled := (List.range (mesosRange.End + 1 - mesosRange.Begin)).map
    (fun k => toInt64 (mesosRange.Begin + k))
  filled ++ List.replicate (len - filled.length) 0

/-- The function `RangesToArray`. -/
def RangesToArray (ranges : List Value_Range) : List Int :=
  ranges.foldl (fun array mesosRange => array ++ RangesToArray.temp mesosRange) []

/-! ## `AskForPorts` -/

/-- The slice location `sliceLoc` that `AskForPorts` computes for a port list
of length `numPorts`: where it starts taking ports. -/
def AskForPorts.sliceLoc (rnd numPorts portCount : Nat) : Nat :=
  if numPorts - portCount = 0 then 0 else Intn rnd (numPorts - portCount)

/-- The loop of `AskForPorts` from position `idx` on; `rest` is `resources[idx:]`. -/
def AskForPorts.loop (portCount : Nat) (rnd : Nat) (resources newResources : List Resource) :
    Nat → List Resource → List Resource × Option Resource × Bool
  | _, [] => (resources, none, false)
  | idx, resource :: rest =>
    if resource.Name = "ports" then
      let ports := RangesToArray resource.GetRangesRange
      if ports.length ≥ portCount then
        let sliceLoc := AskForPorts.sliceLoc rnd ports.length portCount
        let takingPorts := (ports.drop sliceLoc).take portCount
        let leavingPorts := ports.take sliceLoc ++ ports.drop (sliceLoc + portCount)
        (newResources.set idx (NewRangesResource "ports" (ArrayToRanges leavingPorts)),
          some (NewRangesResource "ports" (ArrayToRanges takingPorts)), true)
      else AskForPorts.loop portCount rnd resources newResources (idx + 1) rest
    else AskForPorts.loop portCount rnd resources newResources (idx + 1) rest

/-- The asker `AskForPorts(portCount)`, with the state `rnd` of the random
source made explicit. The count is a natural number: a negative `portCount`
makes the Go code panic in `make`. -/
def AskForPorts (portCount : Nat) (rnd : Nat) : ResourceAsker :=
  fun resources =>
    let newResources := resources
    AskForPorts.loop portCount rnd resources newResources 0 resources

/-! ## The placement round (`scheduler/scheduler.go`) -/

/-- The message `mesos.Offer`: its id and its resource vector. -/
structure Offer where
  Id : String
  Resources : List Resource
deriving DecidableEq

/-- The Go map `map[string][]*mesos.TaskInfo`: an absent key reads as `none`. -/
abbrev LaunchTasks (T : Type) := String → Option (List T)

/-- The function `SchedulerCore.spreadNodesAcrossOffers`.

The node type `N` and the task descriptor type `T` are parameters, and so are
the two methods of `FrameworkRiakNode` it calls, `GetCombinedAsk` and
`PrepareForLaunchAndGetNewTaskInfo`. The result is the returned pair (launch
map, error); `none` stands for the run-time panic of an index out of range.
The writes to `sc.frnDict` and the calls of `Persist` do not flow into the
returned pair and are not tracked. -/
def spreadNodesAcrossOffers {N T : Type} (GetCombinedAsk : N → CombinedResourceAsker)
    (PrepareForLaunchAndGetNewTaskInfo : N → Offer → List Resource → List Resource → T)
    (allOffers : List Offer) (allResources : List (List Resource)) (allNodes : List N)
    (currentOfferIndex currentRiakNodeIndex : Nat) (launchTasks : LaunchTasks T) :
    Option (LaunchTasks T × Option String) :=
  if _h0 : allNodes.length = 0 ∨ allResources.length = 0 then
    some (launchTasks, none)
  else if _h1 : currentRiakNodeIndex ≥ allNodes.length then
    some (launchTasks, none)
  else if _h2 : currentOfferIndex ≥ allResources.length then
    spreadNodesAcrossOffers GetCombinedAsk PrepareForLaunchAndGetNewTaskInfo
      allOffers allResources allNodes 0 currentRiakNodeIndex launchTasks
  else
    match allOffers[currentOfferIndex]? with
    | none => none
    | some offer =>
      let riakNode := allNodes[currentRiakNodeIndex]
      let r := GetCombinedAsk riakNode allResources[currentOfferIndex]
      let allResources1 := allResources.set currentOfferIndex r.1
      let executorAsk := r.2.1
      let taskAsk := r.2.2.1
      let success := r.2.2.2
      if success then
        let taskInfo := PrepareForLaunchAndGetNewTaskInfo riakNode offer executorAsk taskAsk
        let launchTasks1 : LaunchTasks T := fun k =>
          if k = offer.Id then some ((launchTasks offer.Id).getD [] ++ [taskInfo]) else launchTasks k
        let allNodes1 := allNodes.eraseIdx currentRiakNodeIndex
        spreadNodesAcrossOffers GetCombinedAsk PrepareForLaunchAndGetNewTaskInfo
          allOffers allResources1 allNodes1 (currentOfferIndex + 1) (currentRiakNodeIndex + 1)
          launchTasks1
      else if allResources1.length ≤ 1 then
        some (launchTasks, some "Not enough resources to schedule RiakNode")
      else
        spreadNodesAcrossOffers GetCombinedAsk PrepareForLaunchAndGetNewTaskInfo
          (allOffers.eraseIdx currentOfferIndex) (allResources1.eraseIdx currentOfferIndex)
          allNodes (currentOfferIndex + 1) currentRiakNodeIndex launchTasks
termination_by 2 * (allNodes.length + allResources.length) +
  (if currentOfferIndex ≥ allResources.length then 1 else 0)
decreasing_by
  all_goals simp_wf
  · have h3 : allResources.length ≠ 0 := fun h => _h0 (Or.inr h)
    have h4 : ¬ (allResources = []) := fun h => h3 (by simp [h])
    simp [h4, _h2]
  · have h4 : (allNodes.eraseIdx currentRiakNodeIndex).length = allNodes.length - 1 :=
      List.length_eraseIdx_of_lt (by omega)
    rw [h4]
    split <;> omega
  · have h5 : ((allResources.set currentOfferIndex r.1).eraseIdx currentOfferIndex).length
        = allResources.length - 1 := by
      rw [List.length_eraseIdx_of_lt (by simp; omega)]
      simp
    rw [h5]
    split <;> omega

/-- The placement part of `SchedulerCore.ResourceOffers`: the launch map and
the error that the call of `spreadNodesAcrossOffers` returns for the received
offers and the nodes `toBeScheduled`. -/
def ResourceOffers {N T : Type} (GetCombinedAsk : N → CombinedResourceAsker)
    (PrepareForLaunchAndGetNewTaskInfo : N → Offer → List Resource → List Resource → T)
    (offers : List Offer) (toBeScheduled : List N) : Option (LaunchTasks T × Option String) :=
  let launchTasks : LaunchTasks T := fun _ => none
  let allResources := offers.map (fun offer => offer.Resources)
  spreadNodesAcrossOffers GetCombinedAsk PrepareForLaunchAndGetNewTaskInfo
    offers allResources toBeScheduled 0 0 launchTasks

/-! ## Nodes and task descriptors

The source of `FrameworkRiakNode` is not part of the development; the
placement round takes its two methods as parameters. The definitions below
give one instance of them, used to run the round on concrete inputs. -/

/-- Modelled from the spec: the scheduler's record of a node
(`FrameworkRiakNode`), reduced to its uuid and its per-node resource ask
(cpus, mem, disk, port count). -/
structure FrameworkRiakNode where
  UUID : String
  Cpus : ℚ
  Mem : ℚ
  Disk : ℚ
  Ports : Nat
deriving DecidableEq

/-- Modelled from the spec: the task descriptor (`mesos.TaskInfo`) of a node
on an offer, with the resources charged to the executor and to the task. -/
structure TaskInfo where
  Name : String
  Executor : List Resource
  Resources : List Resource
deriving DecidableEq

/-- Modelled from the spec: to carve several quantities from one offer, fold
the askers over the offer, short-circuiting on failure. -/
def foldAskers : List ResourceAsker → List Resource → Option (List Resource × List Resource)
  | [], offer => some (offer, [])
  | asker :: rest, offer =>
    match asker offer with
    | (remaining, some ask, true) =>
      match foldAskers rest remaining with
      | some (remaining1, asks) => some (remaining1, ask :: asks)
      | none => none
    | _ => none

/-- Modelled from the spec: a combined asker carves the executor asks and then
the task asks from one offer; on failure the vector is returned unchanged. -/
def combinedAsk (executorAsks taskAsks : List ResourceAsker) : CombinedResourceAsker :=
  fun offer =>
    match foldAskers executorAsks offer with
    | none => (offer, [], [], false)
    | some (remaining, executorAsk) =>
      match foldAskers taskAsks remaining with
      | none => (offer, [], [], false)
      | some (remaining1, taskAsk) => (remaining1, executorAsk, taskAsk, true)

/-- Modelled from the spec: the combined asker of a node (the method
`FrameworkRiakNode.GetCombinedAsk`), carving the node's cpus, mem, disk and
ports for the task; `rnd` is the state of the random source. -/
def FrameworkRiakNode.GetCombinedAsk (rnd : Nat) (frn : FrameworkRiakNode) :
    CombinedResourceAsker :=
  combinedAsk []
    [AskForCPU frn.Cpus, AskForMemory frn.Mem, AskForDisk frn.Disk, AskForPorts frn.Ports rnd]

/-- Modelled from the spec: the task descriptor built for a node on an offer
(the method `FrameworkRiakNode.PrepareForLaunchAndGetNewTaskInfo`). -/
def FrameworkRiakNode.PrepareForLaunchAndGetNewTaskInfo (frn : FrameworkRiakNode)
    (_offer : Offer) (executorAsk taskAsk : List Resource) : TaskInfo :=
  { Name := frn.UUID, Executor := executorAsk, Resources := taskAsk }

/-- An offer with scalar cpus, mem and disk and one range of ports. -/
def mkOffer (id : String) (cpus mem disk : ℚ) (portBegin portEnd : Nat) : Offer :=
  { Id := id
    Resources := [NewScalarResource "cpus" cpus, NewScalarResource "mem" mem,
      NewScalarResource "disk" disk,
      NewRangesResource "ports" [NewValueRange portBegin portEnd]] }

/-- A node asking for cpus=1, mem=512, disk=1024 and four ports. -/
def mkNode (uuid : String) : FrameworkRiakNode :=
  { UUID := uuid, Cpus := 1, Mem := 512, Disk := 1024, Ports := 4 }

/-! ## Predicates used in the statements -/

/-- A resource vector satisfies the combined askers of a list of nodes when
they are applied one after another, each to what the previous one left. -/
def FitsInSequence {N : Type} (GetCombinedAsk : N → CombinedResourceAsker) :
    List N → List Resource → Prop
  | [], _ => True
  | node :: rest, resources =>
    (GetCombinedAsk node resources).2.2.2 = true ∧
      FitsInSequence GetCombinedAsk rest (GetCombinedAsk node resources).1

/-- The sum of the scalar values of the entries of a vector named `name`. -/
def scalarSum (name : String) (resources : List Resource) : ℚ :=
  ((resources.filter (fun r => r.Name = name)).map Resource.GetScalarValue).sum

/-- An entry accommodates a scalar ask: it has the name and a value `≥` the amount. -/
def Accommodates (name : String) (amt : ℚ) (r : Resource) : Prop :=
  r.Name = name ∧ amt ≤ r.GetScalarValue

/-- A range set is canonical: every interval is non-empty (`Begin ≤ End`), and
the intervals are ascending and non-overlapping with a gap `≥ 2` between
neighbours. -/
def IsCanonical (ranges : List Value_Range) : Prop :=
  (∀ r ∈ ranges, r.Begin ≤ r.End) ∧ ranges.Chain' (fun a b => a.End + 2 ≤ b.Begin)

/-- The integer `x` lies in one of the intervals of the range set. -/
def Covers (ranges : List Value_Range) (x : Nat) : Prop :=
  ∃ r ∈ ranges, r.Begin ≤ x ∧ x ≤ r.End

/-- The range list `c` is the canonicalization of `ranges`: canonical, and
covering the same set of integers. -/
def IsCanonicalizationOf (ranges c : List Value_Range) : Prop :=
  IsCanonical c ∧ ∀ x, Covers c x ↔ Covers ranges x

/-- Every endpoint of the range set, and its successor, is an exact `int64`:
the conversions between `uint64` and `int64` do not wrap on it. -/
def FitsInt64 (ranges : List Value_Range) : Prop :=
  ∀ r ∈ ranges, r.End + 1 < 2 ^ 63

/-- Every element of the list, and its successor, is a non-negative exact `int64`. -/
def PortsFitInt64 (ports : List Int) : Prop :=
  ∀ x ∈ ports, 0 ≤ x ∧ x + 1 < 2 ^ 63

/-- The number of ports a range set expands to. -/
def portCount (ranges : List Value_Range) : Nat :=
  (RangesToArray ranges).length

/-- The ports of a range set with `Begin ≤ End` throughout, as naturals: each
interval listed in ascending order, the intervals in the order given. -/
def expand : List Value_Range → List Nat
  | [] => []
  | r :: rs => List.range' r.Begin (r.End + 1 - r.Begin) ++ expand rs

/-- The loop of `ArrayToRanges` on exact integers, as a recursion over the
values still to be read: `(b, e)` is the last element of `fakeret`. -/
def runs (b e : Int) : List Int → List (Int × Int)
  | [] => [(b, e)]
  | val :: rest => if val > wrapInt64 (e + 1) then (b, e) :: runs val val rest else runs b val rest

/-- The loop of `ArrayToRanges` on naturals below the `int64` bound, where no
conversion wraps. -/
def runsNat (b e : Nat) : List Nat → List Value_Range
  | [] => [NewValueRange b e]
  | val :: rest => if val > e + 1 then NewValueRange b e :: runsNat val val rest
    else runsNat b val rest

/-- An entry accommodates a port ask: it is named "ports" and expands to at
least `n` ports. -/
def HasPorts (n : Nat) (r : Resource) : Prop :=
  r.Name = "ports" ∧ n ≤ (RangesToArray r.GetRangesRange).length

instance (n : Nat) : DecidablePred (HasPorts n) := fun r =>
  inferInstanceAs (Decidable (r.Name = "ports" ∧ n ≤ (RangesToArray r.GetRangesRange).length))

instance : DecidablePred IsCanonical := fun ranges =>
  inferInstanceAs (Decidable ((∀ r ∈ ranges, r.Begin ≤ r.End) ∧
    List.Chain' (fun a b : Value_Range => a.End + 2 ≤ b.Begin) ranges))

instance (ranges : List Value_Range) : DecidablePred (Covers ranges) := fun x =>
  inferInstanceAs (Decidable (∃ r ∈ ranges, r.Begin ≤ x ∧ x ≤ r.End))

instance : DecidablePred FitsInt64 := fun ranges =>
  inferInstanceAs (Decidable (∀ r ∈ ranges, r.End + 1 < 2 ^ 63))

instance : DecidablePred PortsFitInt64 := fun ports =>
  inferInstanceAs (Decidable (∀ x ∈ ports, 0 ≤ x ∧ x + 1 < 2 ^ 63))

instance (name : String) (amt : ℚ) : DecidablePred (Accommodates name amt) := fun r =>
  inferInstanceAs (Decidable (r.Name = name ∧ amt ≤ r.GetScalarValue))

/-! ## Reconciliation (`SchedulerCore.GetTasksToReconcile`)

Times are integers, in nanoseconds. The clock is explicit: the `k`-th call of
`time.Now()` (also the one inside `time.Since`) reads `clock k`. A
`time.Duration` counts nanoseconds, and `d.Seconds() > 5` holds exactly when
`d` exceeds `5 * 10^9` of them; that `time.Since` saturates at the ends of
`int64` does not change the comparison. -/

/-- The enumeration `mesos.TaskState`. -/
inductive TaskState where
  | TASK_STAGING
  | TASK_STARTING
  | TASK_RUNNING
  | TASK_FINISHED
  | TASK_FAILED
  | TASK_KILLED
  | TASK_LOST
  | TASK_ERROR
deriving DecidableEq, Repr

/-- The message `mesos.TaskStatus`, reduced to its task id and its state. -/
structure TaskStatus where
  TaskId : String
  State : TaskState
deriving DecidableEq, Repr

/-- Modelled from the spec: a `FrameworkRiakNode` together with the attributes
that reconciliation reads and writes: the last observed task status, the
`reconciled` flag and the `lastAskedToReconcile` timestamp. -/
structure ReconcilingNode extends FrameworkRiakNode where
  LastTaskStatus : TaskStatus
  reconciled : Bool
  lastAskedToReconcile : Int
deriving DecidableEq

/-- Modelled from the spec: the method `FrameworkRiakNode.GetTaskStatus`, the
last-known task status of the node. -/
def ReconcilingNode.GetTaskStatus (node : ReconcilingNode) : TaskStatus :=
  node.LastTaskStatus

/-- Modelled from the spec: a cluster (`FrameworkRiakCluster`), its name and
its nodes by uuid. The Go map `Nodes` is listed in the order in which the
`range` statement visits it. -/
structure FrameworkRiakCluster where
  Name : String
  Nodes : List (String × ReconcilingNode)

/-- Modelled from the spec: the persisted root `SchedulerState`, an optional
framework id and the clusters by name, listed in the order in which the
`range` statement visits them. -/
structure SchedulerState where
  FrameworkID : Option String
  Clusters : List (String × FrameworkRiakCluster)

/-- The fields of `SchedulerCore` that `GetTasksToReconcile` reads and writes.
The map `frnDict` holds pointers to nodes; a pointer is the uuid of its node. -/
structure SchedulerCore where
  frnDict : String → Option String
  schedulerState : SchedulerState

/-- The variables of a call of `GetTasksToReconcile` that its loops update:
the number of clock readings made so far, the map `sc.frnDict` and the slice
`tasksToReconcile`. -/
structure ReconcileVars where
  tick : Nat
  frnDict : String → Option String
  tasksToReconcile : List TaskStatus

/-- The body of the inner loop of `GetTasksToReconcile` for one node: the
variables and the node after it. The test `node.reconciled == false && ...`
short-circuits, so the clock is read only for a node that is not reconciled. -/
def GetTasksToReconcile.visit (clock : Nat → Int) (v : ReconcileVars) (node : ReconcilingNode) :
    ReconcileVars × ReconcilingNode :=
  if node.reconciled = false then
    if clock v.tick - node.lastAskedToReconcile > 5 * 10 ^ 9 then
      let taskId := node.GetTaskStatus.TaskId
      let frnDict : String → Option String :=
        if (v.frnDict taskId).isSome then v.frnDict
        else fun k => if k = taskId then some node.UUID else v.frnDict k
      let node1 : ReconcilingNode := { node with lastAskedToReconcile := clock (v.tick + 1) }
      ({ tick := v.tick + 2, frnDict := frnDict,
         tasksToReconcile := v.tasksToReconcile ++ [node1.GetTaskStatus] }, node1)
    else ({ v with tick := v.tick + 1 }, node)
  else (v, node)

/-- The inner loop of `GetTasksToReconcile`, over the nodes of one cluster. -/
def GetTasksToReconcile.nodes (clock : Nat → Int) :
    ReconcileVars → List (String × ReconcilingNode) →
      ReconcileVars × List (String × ReconcilingNode)
  | v, [] => (v, [])
  | v, (uuid, node) :: rest =>
    let r := GetTasksToReconcile.visit clock v node
    let rs := GetTasksToReconcile.nodes clock r.1 rest
    (rs.1, (uuid, r.2) :: rs.2)

/-- The outer loop of `GetTasksToReconcile`, over the clusters. -/
def GetTasksToReconcile.clusters (clock : Nat → Int) :
    ReconcileVars → List (String × FrameworkRiakCluster) →
      ReconcileVars × List (String × FrameworkRiakCluster)
  | v, [] => (v, [])
  | v, (name, cluster) :: rest =>
    let r := GetTasksToReconcile.nodes clock v cluster.Nodes
    let rs := GetTasksToReconcile.clusters clock r.1 rest
    (rs.1, (name, { cluster with Nodes := r.2 }) :: rs.2)

/-- The function `SchedulerCore.GetTasksToReconcile`, called when the clock
has been read `tick` times: the returned slice, the scheduler after the call
and the number of clock readings after it. (The call holds the scheduler lock
throughout.) -/
def GetTasksToReconcile (clock : Nat → Int) (tick : Nat) (sc : SchedulerCore) :
    List TaskStatus × SchedulerCore × Nat :=
  let v : ReconcileVars := { tick := tick, frnDict := sc.frnDict, tasksToReconcile := [] }
  let r := GetTasksToReconcile.clusters clock v sc.schedulerState.Clusters
  (r.1.tasksToReconcile,
    { frnDict := r.1.frnDict, schedulerState := { sc.schedulerState with Clusters := r.2 } },
    r.1.tick)

/-- The nodes of the scheduler state, in the order in which the loops visit them. -/
def SchedulerCore.nodes (sc : SchedulerCore) : List ReconcilingNode :=
  sc.schedulerState.Clusters.flatMap (fun c => c.2.Nodes.map (fun n => n.2))

/-- A node is due for reconciliation at time `now`: it is not reconciled and
was last asked more than 5 seconds before. -/
def Due (now : Int) (node : ReconcilingNode) : Prop :=
  node.reconciled = false ∧ now - node.lastAskedToReconcile > 5 * 10 ^ 9

instance (now : Int) : DecidablePred (Due now) := fun node =>
  inferInstanceAs (Decidable (node.reconciled = false ∧
    now - node.lastAskedToReconcile > 5 * 10 ^ 9))

/-- The node after a call at time `now`: asked at `now` if it was due, and
unchanged otherwise. -/
def markAsked (now : Int) (node : ReconcilingNode) : ReconcilingNode :=
  if Due now node then { node with lastAskedToReconcile := now } else node

/-- A node with reconciliation attributes, asking for the resources of `mkNode`. -/
def mkReconcilingNode (uuid : String) (reconciled : Bool) (lastAskedToReconcile : Int)
    (status : TaskStatus) : ReconcilingNode :=
  { toFrameworkRiakNode := mkNode uuid, LastTaskStatus := status, reconciled := reconciled,
    lastAskedToReconcile := lastAskedToReconcile }

/-- A scheduler with one cluster of three nodes: `a` was never asked, `b` was
asked at 6 s, and `c` is reconciled. -/
def exampleScheduler : SchedulerCore :=
  { frnDict := fun _ => none,
    schedulerState :=
      { FrameworkID := none,
        Clusters := [("riak",
          { Name := "riak",
            Nodes := [
              ("a", mkReconcilingNode "a" false 0
                { TaskId := "a-1", State := TaskState.TASK_RUNNING }),
              ("b", mkReconcilingNode "b" false (6 * 10 ^ 9)
                { TaskId := "b-1", State := TaskState.TASK_STAGING }),
              ("c", mkReconcilingNode "c" true 0
                { TaskId := "c-1", State := TaskState.TASK_RUNNING })] })] } }

/-! ## The executor: port assignment (`executor/riak_node.go`) -/

/-- The library function `mesosutil.FilterResources`. -/
def FilterResources (resources : List Resource) (filter : Resource → Bool) : List Resource :=
  resources.filter filter

/-- The function `portIter`. The channel it returns is the sequence of values
that its goroutine sends, in the order of sending, before it closes the
channel. -/
def portIter (resources : List Resource) : List Int :=
  (FilterResources resources (fun res => res.Name = "ports")).foldl
    (fun ports resource =>
      (RangesToArray resource.GetRangesRange).foldl (fun ports port => ports ++ [port]) ports)
    []

/-- A receive `<-ports` from the channel of `portIter`: the value received
and the channel after it. The next value sent is received; once all values
have been received the channel is closed, and a receive yields the zero
value. -/
def recv (ports : List Int) : Int × List Int :=
  match ports with
  | [] => (0, [])
  | port :: rest => (port, rest)

/-- The type `templateData`. -/
structure templateData where
  HTTPPort : Int
  PBPort : Int
  HandoffPort : Int
  FullyQualifiedNodeName : String
deriving DecidableEq, Repr

/-- Modelled from the spec: the payload `common.TaskData` shipped to the
executor. -/
structure TaskData where
  FullyQualifiedNodeName : String
  RexFullyQualifiedNodeName : String
  ClusterName : String
  Zookeepers : List String
deriving DecidableEq, Repr

/-- The type `RiakNode`, reduced to the task descriptor and the task data. -/
structure RiakNode where
  taskInfo : TaskInfo
  taskData : TaskData

/-- The method `RiakNode.configureRiak`: the template data that `riak.conf`
is rendered with, and the channel after the three receives. (The template and
the file it is written to are outside the embedding.) -/
def RiakNode.configureRiak (riakNode : RiakNode) (ports : List Int) : templateData × List Int :=
  let r1 := recv ports
  let r2 := recv r1.2
  let r3 := recv r2.2
  ({ HTTPPort := r1.1, PBPort := r2.1, HandoffPort := r3.1,
     FullyQualifiedNodeName := riakNode.taskData.FullyQualifiedNodeName }, r3.2)

/-- What `RiakNode.Run` does with the ports: the template data rendered by
`configureRiak` and the arguments of the call `rex.NewRiakExplorer`. -/
structure PortAssignment where
  vars : templateData
  rexPort : Int
  rexName : String
deriving DecidableEq, Repr

/-- The port assignment of the method `RiakNode.Run`: the statements that
read the channel of `portIter`, up to the call `rex.NewRiakExplorer`. -/
def RiakNode.Run (riakNode : RiakNode) : PortAssignment :=
  let ports := portIter riakNode.taskInfo.Resources
  let r := riakNode.configureRiak ports
  let rexPort := (recv r.2).1
  { vars := r.1, rexPort := rexPort, rexName := riakNode.taskData.RexFullyQualifiedNodeName }

/-- The ports offered to a task: the resources named "ports", taken in vector
order, each expanded by `RangesToArray` (range by range, every range in
ascending order). -/
def offeredPorts (resources : List Resource) : List Int :=
  (resources.filter (fun r => r.Name = "ports")).flatMap
    (fun r => RangesToArray r.GetRangesRange)

/-- The task data of the example executor nodes. -/
def exampleTaskData : TaskData :=
  { FullyQualifiedNodeName := "riak-a@host", RexFullyQualifiedNodeName := "rex-a@host",
    ClusterName := "riak", Zookeepers := ["zk:2181"] }

/-- An executor node whose task holds two "ports" resources of two ports
each, with scalar resources before and between them. -/
def examplePortsNode : RiakNode :=
  { taskInfo :=
      { Name := "a", Executor := [],
        Resources := [NewScalarResource "cpus" 1,
          NewRangesResource "ports" [NewValueRange 31000 31001],
          NewScalarResource "mem" 512,
          NewRangesResource "ports" [NewValueRange 31005 31006]] },
    taskData := exampleTaskData }

/-- An executor node whose task holds one "ports" resource of two ports. -/
def exampleTwoPortsNode : RiakNode :=
  { taskInfo :=
      { Name := "a", Executor := [],
        Resources := [NewScalarResource "cpus" 1,
          NewRangesResource "ports" [NewValueRange 31000 31001]] },
    taskData := exampleTaskData }

/-! ## The placement round: theorems -/

theorem eraseIdx_set_self {α : Type} (l : List α) (i : Nat) (x : α) :
    (l.set i x).eraseIdx i = l.eraseIdx i := by
  induction l generalizing i with
  | nil => simp
  | cons a l ih =>
    cases i with
    | zero => simp
    | succ i => simp [ih]

/-- One unfolding of the round at a cursor inside the offer list whose offer
does not satisfy the asker of the node at the node cursor. -/
theorem spread_fail_step {N T : Type} (ask : N → CombinedResourceAsker)
    (prep : N → Offer → List Resource → List Resource → T)
    (allOffers : List Offer) (allResources : List (List Resource)) (allNodes : List N)
    (oi ni : Nat) (launchTasks : LaunchTasks T)
    (hni : ni < allNodes.length) (hoi : oi < allResources.length)
    (hlen : allOffers.length = allResources.length)
    (hfail : (ask allNodes[ni] allResources[oi]).2.2.2 = false) :
    spreadNodesAcrossOffers ask prep allOffers allResources allNodes oi ni launchTasks =
      if allResources.length ≤ 1 then
        some (launchTasks, some "Not enough resources to schedule RiakNode")
      else
        spreadNodesAcrossOffers ask prep (allOffers.eraseIdx oi) (allResources.eraseIdx oi)
          allNodes (oi + 1) ni launchTasks := by
  rw [spreadNodesAcrossOffers]
  have h0 : ¬ (allNodes.length = 0 ∨ allResources.length = 0) := by omega
  have h1 : ¬ (ni ≥ allNodes.length) := by omega
  have h2 : ¬ (oi ≥ allResources.length) := by omega
  have h3 : allOffers[oi]? = some allOffers[oi] := List.getElem?_eq_getElem (by omega)
  simp only [h0, h1, h2, dite_false, h3, hfail, List.length_set, eraseIdx_set_self]
  simp

/-- One unfolding of the round at an offer cursor past the end of the offer list. -/
theorem spread_wrap_step {N T : Type} (ask : N → CombinedResourceAsker)
    (prep : N → Offer → List Resource → List Resource → T)
    (allOffers : List Offer) (allResources : List (List Resource)) (allNodes : List N)
    (oi ni : Nat) (launchTasks : LaunchTasks T)
    (hni : ni < allNodes.length) (hne : allResources.length ≠ 0)
    (hoi : allResources.length ≤ oi) :
    spreadNodesAcrossOffers ask prep allOffers allResources allNodes oi ni launchTasks =
      spreadNodesAcrossOffers ask prep allOffers allResources allNodes 0 ni launchTasks := by
  rw [spreadNodesAcrossOffers]
  have h0 : ¬ (allNodes.length = 0 ∨ allResources.length = 0) := by omega
  have h1 : ¬ (ni ≥ allNodes.length) := by omega
  have h2 : oi ≥ allResources.length := hoi
  simp only [h0, h1, h2, dite_false, dite_true]


/-- The round fails with the launch map untouched when no offer satisfies the
asker of the node at the cursor, for offer lists of every length `n + 1`. -/
theorem spread_insufficient_aux {N T : Type} (ask : N → CombinedResourceAsker)
    (prep : N → Offer → List Resource → List Resource → T) (allNodes : List N) (ni : Nat)
    (launchTasks : LaunchTasks T) (hni : ni < allNodes.length) :
    ∀ (n : Nat) (allOffers : List Offer) (allResources : List (List Resource)) (oi : Nat),
      allResources.length = n + 1 → allOffers.length = allResources.length →
      (∀ r ∈ allResources, (ask allNodes[ni] r).2.2.2 = false) →
      spreadNodesAcrossOffers ask prep allOffers allResources allNodes oi ni launchTasks =
        some (launchTasks, some "Not enough resources to schedule RiakNode") := by
  intro n
  induction n with
  | zero =>
    intro allOffers allResources oi hn hlen hfail
    have key : ∀ oi, oi < allResources.length →
        spreadNodesAcrossOffers ask prep allOffers allResources allNodes oi ni launchTasks =
          some (launchTasks, some "Not enough resources to schedule RiakNode") := by
      intro oi hoi
      rw [spread_fail_step ask prep allOffers allResources allNodes oi ni launchTasks hni hoi hlen
        (hfail _ (List.getElem_mem _))]
      simp [hn]
    by_cases hoi : oi < allResources.length
    · exact key oi hoi
    · rw [spread_wrap_step ask prep allOffers allResources allNodes oi ni launchTasks hni
        (by omega) (by omega)]
      exact key 0 (by omega)
  | succ n ih =>
    intro allOffers allResources oi hn hlen hfail
    have key : ∀ oi, oi < allResources.length →
        spreadNodesAcrossOffers ask prep allOffers allResources allNodes oi ni launchTasks =
          some (launchTasks, some "Not enough resources to schedule RiakNode") := by
      intro oi hoi
      rw [spread_fail_step ask prep allOffers allResources allNodes oi ni launchTasks hni hoi hlen
        (hfail _ (List.getElem_mem _))]
      have hgt : ¬ (allResources.length ≤ 1) := by omega
      rw [if_neg hgt]
      apply ih
      · rw [List.length_eraseIdx_of_lt hoi]; omega
      · rw [List.length_eraseIdx_of_lt hoi, List.length_eraseIdx_of_lt (by omega)]; omega
      · intro r hr
        exact hfail r (List.mem_of_mem_eraseIdx hr)
    by_cases hoi : oi < allResources.length
    · exact key oi hoi
    · rw [spread_wrap_step ask prep allOffers allResources allNodes oi ni launchTasks hni
        (by omega) (by omega)]
      exact key 0 (by omega)

/-- C4: for every non-empty list of offers (with their resource vectors) and
every list of nodes whose node at the cursor has a combined asker that no
offer in the list satisfies, the placement round returns the
insufficient-resources error together with the launch map it was given,
unchanged. -/
theorem spread_insufficient_resources {N T : Type} (GetCombinedAsk : N → CombinedResourceAsker)
    (PrepareForLaunchAndGetNewTaskInfo : N → Offer → List Resource → List Resource → T)
    (allOffers : List Offer) (allResources : List (List Resource)) (allNodes : List N)
    (currentOfferIndex currentRiakNodeIndex : Nat) (launchTasks : LaunchTasks T)
    (hne : allResources ≠ [])
    (hlen : allOffers.length = allResources.length)
    (hni : currentRiakNodeIndex < allNodes.length)
    (hfail : ∀ r ∈ allResources,
      (GetCombinedAsk allNodes[currentRiakNodeIndex] r).2.2.2 = false) :
    spreadNodesAcrossOffers GetCombinedAsk PrepareForLaunchAndGetNewTaskInfo allOffers
        allResources allNodes currentOfferIndex currentRiakNodeIndex launchTasks =
      some (launchTasks, some "Not enough resources to schedule RiakNode") := by
  have hpos : allResources.length ≠ 0 := fun h => hne (List.length_eq_zero.mp h)
  exact spread_insufficient_aux GetCombinedAsk PrepareForLaunchAndGetNewTaskInfo allNodes
    currentRiakNodeIndex launchTasks hni (allResources.length - 1) allOffers allResources
    currentOfferIndex (by omega) hlen hfail

/-- C4, on a concrete input: one node needing cpus=4 and one offer with
cpus=2; the round returns the error and the empty launch map. -/
theorem spread_insufficient_resources_witness :
    ResourceOffers (FrameworkRiakNode.GetCombinedAsk 0)
        FrameworkRiakNode.PrepareForLaunchAndGetNewTaskInfo
        [mkOffer "offer-0" 2 2048 4096 31000 31099]
        [{ UUID := "node-0", Cpus := 4, Mem := 512, Disk := 1024, Ports := 4 }] =
      some (fun _ => none, some "Not enough resources to schedule RiakNode") :=
  spread_insufficient_resources (FrameworkRiakNode.GetCombinedAsk 0)
    FrameworkRiakNode.PrepareForLaunchAndGetNewTaskInfo
    [mkOffer "offer-0" 2 2048 4096 31000 31099]
    [(mkOffer "offer-0" 2 2048 4096 31000 31099).Resources]
    [{ UUID := "node-0", Cpus := 4, Mem := 512, Disk := 1024, Ports := 4 }] 0 0 (fun _ => none)
    (by simp) (by simp) (by simp) (by decide!)

/-- C1, the code at the failing input: two nodes each needing cpus=1, mem=512,
disk=1024 and four ports, and one offer with cpus=4, mem=2048, disk=4096 and
ports 31000-31099. The offer satisfies both askers applied one after another,
yet the round returns (with no error) a launch map holding one descriptor,
that of the first node, under the offer's id. -/
theorem spread_two_nodes_one_offer_places_one :
    FitsInSequence (FrameworkRiakNode.GetCombinedAsk 0) [mkNode "node-0", mkNode "node-1"]
        (mkOffer "offer-0" 4 2048 4096 31000 31099).Resources ∧
      (ResourceOffers (FrameworkRiakNode.GetCombinedAsk 0)
          FrameworkRiakNode.PrepareForLaunchAndGetNewTaskInfo
          [mkOffer "offer-0" 4 2048 4096 31000 31099]
          [mkNode "node-0", mkNode "node-1"]).map
        (fun r => ((r.1 "offer-0").map (List.map TaskInfo.Name), r.2)) =
      some (some ["node-0"], none) := by
  refine ⟨⟨by decide!, by decide!, trivial⟩, by decide!⟩

/-- C2, the code at the failing input: three nodes and two identical offers
each sized for two nodes (offer 0 satisfies the askers of nodes 0 and 2 one
after the other, offer 1 that of node 1). The round returns no error, offer 0
receives node 0 only, offer 1 receives node 2, and node 1 is recorded under no
offer. -/
theorem spread_three_nodes_two_offers_skips_one :
    FitsInSequence (FrameworkRiakNode.GetCombinedAsk 0) [mkNode "node-0", mkNode "node-2"]
        (mkOffer "offer-0" 2 1024 2048 31000 31007).Resources ∧
      FitsInSequence (FrameworkRiakNode.GetCombinedAsk 0) [mkNode "node-1"]
        (mkOffer "offer-1" 2 1024 2048 31000 31007).Resources ∧
      (ResourceOffers (FrameworkRiakNode.GetCombinedAsk 0)
          FrameworkRiakNode.PrepareForLaunchAndGetNewTaskInfo
          [mkOffer "offer-0" 2 1024 2048 31000 31007, mkOffer "offer-1" 2 1024 2048 31000 31007]
          [mkNode "node-0", mkNode "node-1", mkNode "node-2"]).map
        (fun r => ((r.1 "offer-0").map (List.map TaskInfo.Name),
          (r.1 "offer-1").map (List.map TaskInfo.Name), r.2)) =
      some (some ["node-0"], some ["node-2"], none) := by
  refine ⟨⟨by decide!, by decide!, trivial⟩, ⟨by decide!, trivial⟩, by decide!⟩

/-- C3, the code at the failing input: one node and three offers, of which
offer 0 does not satisfy the node's asker and offers 1 and 2 do. The round
records the node under the id of offer 2 and nothing under the id of offer 1. -/
theorem spread_one_node_skips_following_offer :
    (FrameworkRiakNode.GetCombinedAsk 0 (mkNode "node-0")
        (mkOffer "offer-0" (1 / 2) 2048 4096 31000 31099).Resources).2.2.2 = false ∧
      (FrameworkRiakNode.GetCombinedAsk 0 (mkNode "node-0")
        (mkOffer "offer-1" 4 2048 4096 31000 31099).Resources).2.2.2 = true ∧
      (ResourceOffers (FrameworkRiakNode.GetCombinedAsk 0)
          FrameworkRiakNode.PrepareForLaunchAndGetNewTaskInfo
          [mkOffer "offer-0" (1 / 2) 2048 4096 31000 31099,
            mkOffer "offer-1" 4 2048 4096 31000 31099,
            mkOffer "offer-2" 4 2048 4096 31000 31099]
          [mkNode "node-0"]).map
        (fun r => ((r.1 "offer-0").map (List.map TaskInfo.Name),
          (r.1 "offer-1").map (List.map TaskInfo.Name),
          (r.1 "offer-2").map (List.map TaskInfo.Name), r.2)) =
      some (none, none, some ["node-0"], none) := by
  refine ⟨by decide!, by decide!, by decide!⟩


/-! ## `AskForScalar`: theorems -/

/-- The loop of `AskForScalar`, started behind a prefix `pre` it has already
passed, when no entry of the rest accommodates the ask. -/
theorem AskForScalar_loop_none (name : String) (amt : ℚ) (newResources : List Resource) :
    ∀ (rest : List Resource) (idx : Nat), (∀ r ∈ rest, ¬ Accommodates name amt r) →
      AskForScalar.loop name amt newResources idx rest = (newResources, none, false) := by
  intro rest
  induction rest with
  | nil => intro idx _; rfl
  | cons r rest ih =>
    intro idx h
    have hr : ¬ (r.Name = name ∧ amt ≤ r.GetScalarValue) := h r (List.mem_cons_self _ _)
    rw [AskForScalar.loop, if_neg hr]
    exact ih (idx + 1) (fun x hx => h x (List.mem_cons_of_mem _ hx))

/-- The loop of `AskForScalar`, started behind a prefix `pre`, when the rest
splits at its first accommodating entry. -/
theorem AskForScalar_loop_some (name : String) (amt : ℚ) :
    ∀ (mid pre : List Resource) (r : Resource) (post : List Resource),
      (∀ p ∈ mid, ¬ Accommodates name amt p) → Accommodates name amt r →
      AskForScalar.loop name amt (pre ++ mid ++ r :: post) pre.length (mid ++ r :: post) =
        (pre ++ mid ++ NewScalarResource name (r.GetScalarValue - amt) :: post,
          some (NewScalarResource name amt), true) := by
  intro mid
  induction mid with
  | nil =>
    intro pre r post _ hr
    have hr2 : r.Name = name ∧ amt ≤ r.GetScalarValue := hr
    simp only [List.nil_append, List.append_nil]
    rw [AskForScalar.loop, if_pos hr2]
    simp
  | cons m mid ih =>
    intro pre r post hmid hr
    have hm : ¬ (m.Name = name ∧ amt ≤ m.GetScalarValue) := hmid m (List.mem_cons_self _ _)
    rw [List.cons_append, AskForScalar.loop, if_neg hm]
    have := ih (pre ++ [m]) r post (fun x hx => hmid x (List.mem_cons_of_mem _ hx)) hr
    simpa using this

/-- Every list splits at its first entry satisfying a decidable predicate, if it has one. -/
theorem split_at_first {α : Type} (p : α → Prop) [DecidablePred p] :
    ∀ (l : List α), (∀ x ∈ l, ¬ p x) ∨
      ∃ mid r post, l = mid ++ r :: post ∧ (∀ x ∈ mid, ¬ p x) ∧ p r := by
  intro l
  induction l with
  | nil => left; simp
  | cons a l ih =>
    by_cases ha : p a
    · right; exact ⟨[], a, l, rfl, by simp, ha⟩
    · rcases ih with h | ⟨mid, r, post, hl, hmid, hr⟩
      · left
        intro x hx
        rcases List.mem_cons.mp hx with rfl | hx
        · exact ha
        · exact h x hx
      · right
        refine ⟨a :: mid, r, post, by simp [hl], ?_, hr⟩
        intro x hx
        rcases List.mem_cons.mp hx with rfl | hx
        · exact ha
        · exact hmid x hx

/-- The scalar sum of a name after one entry of that name changed its value. -/
theorem scalarSum_replace (name : String) (pre post : List Resource) (r : Resource) (v : ℚ)
    (hr : r.Name = name) :
    scalarSum name (pre ++ NewScalarResource name v :: post) =
      scalarSum name (pre ++ r :: post) - r.GetScalarValue + v := by
  simp [scalarSum, List.filter_append, List.filter_cons, hr, NewScalarResource,
    Resource.GetScalarValue]
  ring

/-- C5: `AskForScalar(name, amt)(O)` succeeds exactly when some entry of `O`
has that name and a scalar value `≥ amt`; on success the first such entry is
replaced by a scalar of value (old value - amt), every other entry stays in
place, the sum over the entries of that name drops by exactly `amt`, and the
carved ask is a scalar of that name and value `amt`; on failure the ask is
none and the returned vector is `O`. -/
theorem AskForScalar_spec (name : String) (amt : ℚ) (O : List Resource) :
    ((AskForScalar name amt O).2.2 = true ↔ ∃ r ∈ O, Accommodates name amt r) ∧
    ((AskForScalar name amt O).2.2 = true →
      ∃ pre r post, O = pre ++ r :: post ∧ (∀ p ∈ pre, ¬ Accommodates name amt p) ∧
        Accommodates name amt r ∧
        (AskForScalar name amt O).1 =
          pre ++ NewScalarResource name (r.GetScalarValue - amt) :: post ∧
        (AskForScalar name amt O).2.1 = some (NewScalarResource name amt) ∧
        scalarSum name (AskForScalar name amt O).1 = scalarSum name O - amt) ∧
    ((AskForScalar name amt O).2.2 = false → AskForScalar name amt O = (O, none, false)) := by
  rcases split_at_first (Accommodates name amt) O with hnone | ⟨mid, r, post, hO, hmid, hr⟩
  · have hres : AskForScalar name amt O = (O, none, false) :=
      AskForScalar_loop_none name amt O O 0 hnone
    refine ⟨?_, ?_, fun _ => hres⟩
    · rw [hres]
      constructor
      · intro h; simp at h
      · rintro ⟨x, hx, hacc⟩; exact absurd hacc (hnone x hx)
    · rw [hres]; intro h; simp at h
  · have hres : AskForScalar name amt O =
        (mid ++ NewScalarResource name (r.GetScalarValue - amt) :: post,
          some (NewScalarResource name amt), true) := by
      have := AskForScalar_loop_some name amt mid [] r post hmid hr
      simp only [List.nil_append, List.length_nil] at this
      unfold AskForScalar
      rw [hO]
      exact this
    refine ⟨?_, ?_, ?_⟩
    · rw [hres]
      constructor
      · intro _; exact ⟨r, by simp [hO], hr⟩
      · intro _; rfl
    · intro _
      refine ⟨mid, r, post, hO, hmid, hr, by rw [hres], by rw [hres], ?_⟩
      rw [hres]
      show scalarSum name (mid ++ NewScalarResource name (r.GetScalarValue - amt) :: post) = _
      rw [scalarSum_replace name mid post r _ hr.1, hO]
      ring
    · rw [hres]; intro h; simp at h


/-! ## `AskForPorts`: the loop -/

/-- The loop of `AskForPorts` when no entry of the rest accommodates the ask. -/
theorem AskForPorts_loop_none (n rnd : Nat) (resources newResources : List Resource) :
    ∀ (rest : List Resource) (idx : Nat), (∀ r ∈ rest, ¬ HasPorts n r) →
      AskForPorts.loop n rnd resources newResources idx rest = (resources, none, false) := by
  intro rest
  induction rest with
  | nil => intro idx _; rfl
  | cons r rest ih =>
    intro idx h
    have hr : ¬ HasPorts n r := h r (List.mem_cons_self _ _)
    have ih2 := ih (idx + 1) (fun x hx => h x (List.mem_cons_of_mem _ hx))
    rw [AskForPorts.loop]
    by_cases hname : r.Name = "ports"
    · have hlen : ¬ ((RangesToArray r.GetRangesRange).length ≥ n) := fun hl => hr ⟨hname, hl⟩
      simp only [hname, if_true, hlen, if_false]
      exact ih2
    · simp only [hname, if_false]
      exact ih2

/-- The loop of `AskForPorts`, started behind a prefix `pre`, when the rest
splits at its first accommodating entry. -/
theorem AskForPorts_loop_some (n rnd : Nat) (resources : List Resource) :
    ∀ (mid pre : List Resource) (r : Resource) (post : List Resource),
      (∀ p ∈ mid, ¬ HasPorts n p) → HasPorts n r →
      AskForPorts.loop n rnd resources (pre ++ mid ++ r :: post) pre.length (mid ++ r :: post) =
        (pre ++ mid ++ NewRangesResource "ports" (ArrayToRanges
            ((RangesToArray r.GetRangesRange).take
                (AskForPorts.sliceLoc rnd (RangesToArray r.GetRangesRange).length n) ++
              (RangesToArray r.GetRangesRange).drop
                (AskForPorts.sliceLoc rnd (RangesToArray r.GetRangesRange).length n + n))) :: post,
          some (NewRangesResource "ports" (ArrayToRanges
            (((RangesToArray r.GetRangesRange).drop
              (AskForPorts.sliceLoc rnd (RangesToArray r.GetRangesRange).length n)).take n))),
          true) := by
  intro mid
  induction mid with
  | nil =>
    intro pre r post _ hr
    have h1 : r.Name = "ports" := hr.1
    have h2 : (RangesToArray r.GetRangesRange).length ≥ n := hr.2
    simp only [List.nil_append, List.append_nil]
    rw [AskForPorts.loop]
    simp only [h1, if_true, h2]
    simp
  | cons m mid ih =>
    intro pre r post hmid hr
    have hm : ¬ HasPorts n m := hmid m (List.mem_cons_self _ _)
    have ih2 := ih (pre ++ [m]) r post (fun x hx => hmid x (List.mem_cons_of_mem _ hx)) hr
    rw [List.cons_append, AskForPorts.loop]
    by_cases hname : m.Name = "ports"
    · have hlen : ¬ ((RangesToArray m.GetRangesRange).length ≥ n) := fun hl => hm ⟨hname, hl⟩
      simp only [hname, if_true, hlen, if_false]
      simpa using ih2
    · simp only [hname, if_false]
      simpa using ih2

/-- The slice location is a valid start, and never the last one unless it is the only one. -/
theorem sliceLoc_lt (rnd numPorts portCount : Nat) (h : portCount < numPorts) :
    AskForPorts.sliceLoc rnd numPorts portCount < numPorts - portCount := by
  unfold AskForPorts.sliceLoc Intn
  have h1 : numPorts - portCount ≠ 0 := by omega
  rw [if_neg h1]
  exact Nat.mod_lt _ (by omega)

/-- The slice location leaves room for `portCount` ports. -/
theorem sliceLoc_add_le (rnd numPorts portCount : Nat) (h : portCount ≤ numPorts) :
    AskForPorts.sliceLoc rnd numPorts portCount + portCount ≤ numPorts := by
  rcases Nat.lt_or_ge portCount numPorts with h1 | h1
  · have := sliceLoc_lt rnd numPorts portCount h1
    omega
  · have h2 : numPorts - portCount = 0 := by omega
    unfold AskForPorts.sliceLoc
    rw [if_pos h2]
    omega

/-- C7 (as stated, refuted): the first resource named "ports" expands to one
port, fewer than the two asked for, and a later "ports" entry holds four; the
asker succeeds, carving from the later entry. -/
theorem AskForPorts_uses_later_ports_entry :
    (RangesToArray (NewRangesResource "ports" [NewValueRange 31000 31000]).GetRangesRange).length
        < 2 ∧
      AskForPorts 2 0 [NewRangesResource "ports" [NewValueRange 31000 31000],
          NewRangesResource "ports" [NewValueRange 32000 32003]] =
        ([NewRangesResource "ports" [NewValueRange 31000 31000],
            NewRangesResource "ports" [NewValueRange 32002 32003]],
          some (NewRangesResource "ports" [NewValueRange 32000 32001]), true) := by
  refine ⟨by decide!, by decide!⟩

/-- C7 (amended): when every resource named "ports" expands to fewer than
`count` ports, `AskForPorts(count)` fails: it returns no ask, success = false
and the original vector. -/
theorem AskForPorts_fails_without_enough_ports (count rnd : Nat) (resources : List Resource)
    (h : ∀ r ∈ resources, r.Name = "ports" → (RangesToArray r.GetRangesRange).length < count) :
    AskForPorts count rnd resources = (resources, none, false) := by
  unfold AskForPorts
  apply AskForPorts_loop_none
  intro r hr hp
  have := h r hr hp.1
  have := hp.2
  omega

/-- C7 (amended), on a concrete input: two "ports" entries of one and two
ports and a count of three. -/
theorem AskForPorts_fails_without_enough_ports_witness :
    AskForPorts 3 0 [NewScalarResource "cpus" 1,
        NewRangesResource "ports" [NewValueRange 31000 31000],
        NewRangesResource "ports" [NewValueRange 32000 32001]] =
      ([NewScalarResource "cpus" 1, NewRangesResource "ports" [NewValueRange 31000 31000],
        NewRangesResource "ports" [NewValueRange 32000 32001]], none, false) :=
  AskForPorts_fails_without_enough_ports 3 0 _ (by decide!)

/-- C8, the code at the failing input: a "ports" resource of the three ports
31000-31002 and a count of one. Every draw selects a start below 2 = size -
count, and no draw makes the asker carve the port at position 2, the
highest-numbered port 31002. -/
theorem AskForPorts_never_carves_last_port :
    (∀ rnd, AskForPorts.sliceLoc rnd 3 1 < 2) ∧
      ¬ ∃ rnd, (AskForPorts 1 rnd [NewRangesResource "ports" [NewValueRange 31000 31002]]).2.1 =
        some (NewRangesResource "ports" [NewValueRange 31002 31002]) := by
  constructor
  · intro rnd
    exact sliceLoc_lt rnd 3 1 (by omega)
  · rintro ⟨rnd, h⟩
    have hp : HasPorts 1 (NewRangesResource "ports" [NewValueRange 31000 31002]) := by decide!
    have hl := AskForPorts_loop_some 1 rnd [NewRangesResource "ports" [NewValueRange 31000 31002]]
      [] [] (NewRangesResource "ports" [NewValueRange 31000 31002]) [] (by simp) hp
    have hR : RangesToArray (NewRangesResource "ports" [NewValueRange 31000 31002]).GetRangesRange
        = [31000, 31001, 31002] := by decide!
    rw [hR] at hl
    simp only [List.nil_append, List.length_nil] at hl
    unfold AskForPorts at h
    simp only [] at h
    rw [hl] at h
    have hs := sliceLoc_lt rnd 3 1 (by omega)
    simp only [List.length_cons, List.length_nil] at h
    generalize AskForPorts.sliceLoc rnd (0 + 1 + 1 + 1) 1 = s at h hs
    interval_cases s
    · revert h; decide!
    · revert h; decide!



/-! ## Machine integers: where the conversions are exact -/

theorem wrapInt64_eq (x : Int) (h1 : -2 ^ 63 ≤ x) (h2 : x < 2 ^ 63) : wrapInt64 x = x := by
  unfold wrapInt64
  omega

theorem toUInt64_natCast (n : Nat) (h : n < 2 ^ 64) : toUInt64 (n : Int) = n := by
  unfold toUInt64
  omega

theorem toInt64_eq (n : Nat) (h : n < 2 ^ 63) : toInt64 n = (n : Int) := by
  unfold toInt64
  have h1 : n % 2 ^ 64 = n := Nat.mod_eq_of_lt (by omega)
  rw [h1, if_pos h]

/-! ## `RangesToArray` and `ArrayToRanges`: structure -/

theorem foldl_append_temp (acc : List Int) (ranges : List Value_Range) :
    ranges.foldl (fun array mesosRange => array ++ RangesToArray.temp mesosRange) acc =
      acc ++ ranges.foldl (fun array mesosRange => array ++ RangesToArray.temp mesosRange) [] := by
  induction ranges generalizing acc with
  | nil => simp
  | cons r rs ih =>
    simp only [List.foldl_cons, List.nil_append]
    rw [ih (acc ++ RangesToArray.temp r), ih (RangesToArray.temp r), List.append_assoc]

theorem RangesToArray_nil : RangesToArray [] = [] := rfl

theorem RangesToArray_cons (r : Value_Range) (rs : List Value_Range) :
    RangesToArray (r :: rs) = RangesToArray.temp r ++ RangesToArray rs := by
  unfold RangesToArray
  simp only [List.foldl_cons, List.nil_append]
  exact foldl_append_temp _ _

theorem temp_eq (r : Value_Range) (h1 : r.Begin ≤ r.End) (h2 : r.End + 1 < 2 ^ 63) :
    RangesToArray.temp r = (List.range' r.Begin (r.End + 1 - r.Begin)).map (fun n : Nat => (n : Int)) := by
  unfold RangesToArray.temp
  have hlen : (r.End + 2 ^ 64 - r.Begin + 1) % 2 ^ 64 = r.End + 1 - r.Begin := by omega
  simp only [hlen, List.length_map, List.length_range, Nat.sub_self, List.replicate_zero,
    List.append_nil]
  rw [List.range'_eq_map_range, List.map_map]
  apply List.map_congr_left
  intro k hk
  have hk2 : k < r.End + 1 - r.Begin := List.mem_range.mp hk
  simp only [Function.comp]
  exact toInt64_eq _ (by omega)

/-- On a range set with `Begin ≤ End` throughout and below the `int64` bound,
`RangesToArray` lists the ports of `expand`. -/
theorem RangesToArray_eq_expand (ranges : List Value_Range)
    (h1 : ∀ r ∈ ranges, r.Begin ≤ r.End) (h2 : FitsInt64 ranges) :
    RangesToArray ranges = (expand ranges).map (fun n : Nat => (n : Int)) := by
  induction ranges with
  | nil => rfl
  | cons r rs ih =>
    rw [RangesToArray_cons, expand, List.map_append,
      temp_eq r (h1 r (List.mem_cons_self _ _)) (h2 r (List.mem_cons_self _ _)),
      ih (fun x hx => h1 x (List.mem_cons_of_mem _ hx)) (fun x hx => h2 x (List.mem_cons_of_mem _ hx))]

theorem mem_expand (ranges : List Value_Range) (x : Nat) :
    x ∈ expand ranges ↔ Covers ranges x := by
  induction ranges with
  | nil => simp [expand, Covers]
  | cons r rs ih =>
    simp only [expand, List.mem_append, ih, List.mem_range'_1, Covers, List.mem_cons,
      exists_eq_or_imp]
    constructor
    · rintro (⟨ha, hb⟩ | h)
      · left; omega
      · right; exact h
    · rintro (⟨ha, hb⟩ | h)
      · left; omega
      · right; exact h

theorem step_append (pre : List (Int × Int)) (b e val : Int) :
    ArrayToRanges.step (pre ++ [(b, e)]) val =
      if val > wrapInt64 (e + 1) then pre ++ [(b, e), (val, val)] else pre ++ [(b, val)] := by
  unfold ArrayToRanges.step
  simp

theorem foldl_step_eq_runs (l : List Int) :
    ∀ (pre : List (Int × Int)) (b e : Int),
      l.foldl ArrayToRanges.step (pre ++ [(b, e)]) = pre ++ runs b e l := by
  induction l with
  | nil => intro pre b e; rfl
  | cons v l ih =>
    intro pre b e
    rw [List.foldl_cons, step_append, runs]
    by_cases hv : v > wrapInt64 (e + 1)
    · rw [if_pos hv, if_pos hv]
      have := ih (pre ++ [(b, e)]) v v
      simpa using this
    · rw [if_neg hv, if_neg hv]
      exact ih pre b v

/-- The loop of `ArrayToRanges` on naturals below the bound, read as integers. -/
theorem runs_natCast (l : List Nat) :
    ∀ (b e : Nat), b < 2 ^ 63 → e + 1 < 2 ^ 63 → (∀ x ∈ l, x + 1 < 2 ^ 63) →
      (runs (b : Int) (e : Int) (l.map (fun n : Nat => (n : Int)))).map
          (fun r => NewValueRange (toUInt64 r.1) (toUInt64 r.2)) = runsNat b e l := by
  induction l with
  | nil =>
    intro b e hb he _
    simp [runs, runsNat, toUInt64_natCast b (by omega), toUInt64_natCast e (by omega)]
  | cons v l ih =>
    intro b e hb he hl
    have hv : v + 1 < 2 ^ 63 := hl v (List.mem_cons_self _ _)
    have hl2 : ∀ x ∈ l, x + 1 < 2 ^ 63 := fun x hx => hl x (List.mem_cons_of_mem _ hx)
    have hw : wrapInt64 ((e : Int) + 1) = (e : Int) + 1 := wrapInt64_eq _ (by omega) (by omega)
    rw [List.map_cons, runs, runsNat, hw]
    by_cases hc : v > e + 1
    · have hc2 : (v : Int) > (e : Int) + 1 := by omega
      rw [if_pos hc, if_pos hc2, List.map_cons, ih v v (by omega) hv hl2]
      simp [toUInt64_natCast b (by omega), toUInt64_natCast e (by omega)]
    · have hc2 : ¬ ((v : Int) > (e : Int) + 1) := by omega
      rw [if_neg hc, if_neg hc2, ih b v hb hv hl2]

theorem ArrayToRanges_of_sorted_eq (ports : List Int) (p0 : Int) (rest : List Int)
    (h : sortPorts ports = p0 :: rest) :
    ArrayToRanges ports =
      (runs p0 p0 (p0 :: rest)).map (fun r => NewValueRange (toUInt64 r.1) (toUInt64 r.2)) := by
  have hf := foldl_step_eq_runs (p0 :: rest) [] p0 p0
  simp only [List.nil_append] at hf
  unfold ArrayToRanges
  simp only [h, hf]

theorem ArrayToRanges_of_sorted_nil (ports : List Int) (h : sortPorts ports = []) :
    ArrayToRanges ports = [] := by
  unfold ArrayToRanges
  simp only [h]

theorem sortPorts_natCast (l : List Nat) :
    sortPorts (l.map (fun n : Nat => (n : Int))) =
      (l.insertionSort (· ≤ ·)).map (fun n : Nat => (n : Int)) := by
  unfold sortPorts
  exact (List.map_insertionSort (· ≤ ·) (· ≤ ·) (fun n : Nat => (n : Int)) l
    (fun a _ b _ => Int.ofNat_le.symm)).symm

/-- On a list of naturals below the `int64` bound, read as integers,
`ArrayToRanges` is the loop `runsNat` over the sorted list. -/
theorem ArrayToRanges_natCast (l : List Nat) (p0 : Nat) (rest : List Nat)
    (hs : l.insertionSort (· ≤ ·) = p0 :: rest) (hl : ∀ x ∈ l, x + 1 < 2 ^ 63) :
    ArrayToRanges (l.map (fun n : Nat => (n : Int))) = runsNat p0 p0 rest := by
  have hbound : ∀ x ∈ p0 :: rest, x + 1 < 2 ^ 63 := fun x hx =>
    hl x ((List.mem_insertionSort (· ≤ ·)).mp (hs ▸ hx))
  have hp0 : p0 + 1 < 2 ^ 63 := hbound p0 (List.mem_cons_self _ _)
  have hrest : ∀ x ∈ rest, x + 1 < 2 ^ 63 := fun x hx => hbound x (List.mem_cons_of_mem _ hx)
  have h1 : sortPorts (l.map (fun n : Nat => (n : Int))) =
      (p0 : Int) :: rest.map (fun n : Nat => (n : Int)) := by
    rw [sortPorts_natCast, hs, List.map_cons]
  rw [ArrayToRanges_of_sorted_eq _ _ _ h1, runs]
  have hw : wrapInt64 ((p0 : Int) + 1) = (p0 : Int) + 1 := wrapInt64_eq _ (by omega) (by omega)
  have hc : ¬ ((p0 : Int) > wrapInt64 ((p0 : Int) + 1)) := by rw [hw]; omega
  rw [if_neg hc]
  exact runs_natCast rest p0 p0 (by omega) hp0 hrest

theorem ArrayToRanges_natCast_nil (l : List Nat) (hs : l.insertionSort (· ≤ ·) = []) :
    ArrayToRanges (l.map (fun n : Nat => (n : Int))) = [] := by
  apply ArrayToRanges_of_sorted_nil
  rw [sortPorts_natCast, hs, List.map_nil]

/-! ## Canonical range sets -/

theorem isCanonical_nil : IsCanonical [] := by
  simp [IsCanonical]

theorem isCanonical_cons (r : Value_Range) (rs : List Value_Range) :
    IsCanonical (r :: rs) ↔
      r.Begin ≤ r.End ∧ (∀ y ∈ rs.head?, r.End + 2 ≤ y.Begin) ∧ IsCanonical rs := by
  simp only [IsCanonical, List.chain'_cons', List.mem_cons, forall_eq_or_imp]
  tauto

/-- In a canonical range set every later interval begins at least two above
the end of the first. -/
theorem isCanonical_tail_bound (rs : List Value_Range) :
    ∀ (r : Value_Range), IsCanonical (r :: rs) → ∀ q ∈ rs, r.End + 2 ≤ q.Begin := by
  induction rs with
  | nil => intro r _ q hq; simp at hq
  | cons q1 rs ih =>
    intro r h q hq
    obtain ⟨_, h2, h3⟩ := (isCanonical_cons r (q1 :: rs)).mp h
    have h4 : r.End + 2 ≤ q1.Begin := h2 q1 (by simp)
    rcases List.mem_cons.mp hq with rfl | hq
    · exact h4
    · have h5 := ih q1 h3 q hq
      have h6 := ((isCanonical_cons q1 rs).mp h3).1
      omega

theorem covers_cons (r : Value_Range) (rs : List Value_Range) (x : Nat) :
    Covers (r :: rs) x ↔ (r.Begin ≤ x ∧ x ≤ r.End) ∨ Covers rs x := by
  simp [Covers]

theorem covers_nil (x : Nat) : ¬ Covers [] x := by
  simp [Covers]

theorem covers_tail_bound (r : Value_Range) (rs : List Value_Range) (x : Nat)
    (h : IsCanonical (r :: rs)) (hx : Covers rs x) : r.End + 2 ≤ x := by
  obtain ⟨q, hq, hb, _⟩ := hx
  have := isCanonical_tail_bound rs r h q hq
  omega

/-- Two canonical range sets covering the same integers are equal. -/
theorem canonical_unique (c1 : List Value_Range) :
    ∀ (c2 : List Value_Range), IsCanonical c1 → IsCanonical c2 →
      (∀ x, Covers c1 x ↔ Covers c2 x) → c1 = c2 := by
  induction c1 with
  | nil =>
    intro c2 _ h2 hc
    cases c2 with
    | nil => rfl
    | cons q t =>
      have hq := ((isCanonical_cons q t).mp h2).1
      have : Covers (q :: t) q.Begin := (covers_cons q t _).mpr (Or.inl ⟨le_refl _, hq⟩)
      exact absurd ((hc _).mpr this) (covers_nil _)
  | cons r1 t1 ih =>
    intro c2 h1 h2 hc
    have hr1 := ((isCanonical_cons r1 t1).mp h1).1
    cases c2 with
    | nil =>
      have : Covers (r1 :: t1) r1.Begin := (covers_cons r1 t1 _).mpr (Or.inl ⟨le_refl _, hr1⟩)
      exact absurd ((hc _).mp this) (covers_nil _)
    | cons r2 t2 =>
      have hr2 := ((isCanonical_cons r2 t2).mp h2).1
      have hb12 : r2.Begin ≤ r1.Begin := by
        have : Covers (r1 :: t1) r1.Begin := (covers_cons r1 t1 _).mpr (Or.inl ⟨le_refl _, hr1⟩)
        rcases (covers_cons r2 t2 _).mp ((hc _).mp this) with h | h
        · exact h.1
        · have := covers_tail_bound r2 t2 _ h2 h
          omega
      have hb21 : r1.Begin ≤ r2.Begin := by
        have : Covers (r2 :: t2) r2.Begin := (covers_cons r2 t2 _).mpr (Or.inl ⟨le_refl _, hr2⟩)
        rcases (covers_cons r1 t1 _).mp ((hc _).mpr this) with h | h
        · exact h.1
        · have := covers_tail_bound r1 t1 _ h1 h
          omega
      have he12 : r2.End ≤ r1.End := by
        by_contra hlt
        have : Covers (r2 :: t2) (r1.End + 1) :=
          (covers_cons r2 t2 _).mpr (Or.inl ⟨by omega, by omega⟩)
        rcases (covers_cons r1 t1 _).mp ((hc _).mpr this) with h | h
        · omega
        · have := covers_tail_bound r1 t1 _ h1 h
          omega
      have he21 : r1.End ≤ r2.End := by
        by_contra hlt
        have : Covers (r1 :: t1) (r2.End + 1) :=
          (covers_cons r1 t1 _).mpr (Or.inl ⟨by omega, by omega⟩)
        rcases (covers_cons r2 t2 _).mp ((hc _).mp this) with h | h
        · omega
        · have := covers_tail_bound r2 t2 _ h2 h
          omega
      have hr : r1 = r2 := by
        cases r1; cases r2
        simp only [Value_Range.mk.injEq]
        simp only at hb12 hb21 he12 he21
        omega
      have ht : t1 = t2 := by
        apply ih t2 ((isCanonical_cons r1 t1).mp h1).2.2 ((isCanonical_cons r2 t2).mp h2).2.2
        intro x
        constructor
        · intro hx
          have hx2 := covers_tail_bound r1 t1 _ h1 hx
          rcases (covers_cons r2 t2 _).mp ((hc x).mp ((covers_cons r1 t1 x).mpr (Or.inr hx)))
            with h | h
          · omega
          · exact h
        · intro hx
          have hx2 := covers_tail_bound r2 t2 _ h2 hx
          rcases (covers_cons r1 t1 _).mp ((hc x).mpr ((covers_cons r2 t2 x).mpr (Or.inr hx)))
            with h | h
          · omega
          · exact h
      rw [hr, ht]

/-! ## The loop of `ArrayToRanges` on a sorted list -/

theorem runsNat_head (l : List Nat) :
    ∀ (b e : Nat), ∀ y ∈ (runsNat b e l).head?, y.Begin = b := by
  induction l with
  | nil => intro b e y hy; simp [runsNat, NewValueRange] at hy; rw [← hy]
  | cons v l ih =>
    intro b e y hy
    rw [runsNat] at hy
    by_cases hc : v > e + 1
    · rw [if_pos hc] at hy
      simp [NewValueRange] at hy
      rw [← hy]
    · rw [if_neg hc] at hy
      exact ih b v y hy

/-- On a sorted list the loop yields a canonical range set. -/
theorem runsNat_canonical (l : List Nat) :
    ∀ (b e : Nat), b ≤ e → (e :: l).Sorted (· ≤ ·) → IsCanonical (runsNat b e l) := by
  induction l with
  | nil =>
    intro b e hbe _
    rw [runsNat, isCanonical_cons]
    exact ⟨hbe, by simp, isCanonical_nil⟩
  | cons v l ih =>
    intro b e hbe hs
    have hs2 : (v :: l).Sorted (· ≤ ·) := (List.sorted_cons.mp hs).2
    have hev : e ≤ v := (List.sorted_cons.mp hs).1 v (List.mem_cons_self _ _)
    rw [runsNat]
    by_cases hc : v > e + 1
    · rw [if_pos hc, isCanonical_cons]
      refine ⟨hbe, ?_, ih v v (le_refl _) hs2⟩
      intro y hy
      have := runsNat_head l v v y hy
      simp only [NewValueRange]
      omega
    · rw [if_neg hc]
      exact ih b v (by omega) hs2

/-- On a sorted list the loop covers the interval it started with and the values read. -/
theorem runsNat_covers (l : List Nat) :
    ∀ (b e x : Nat), b ≤ e → (e :: l).Sorted (· ≤ ·) →
      (Covers (runsNat b e l) x ↔ (b ≤ x ∧ x ≤ e) ∨ x ∈ l) := by
  induction l with
  | nil =>
    intro b e x _ _
    rw [runsNat, covers_cons]
    simp [NewValueRange, covers_nil]
  | cons v l ih =>
    intro b e x hbe hs
    have hs2 : (v :: l).Sorted (· ≤ ·) := (List.sorted_cons.mp hs).2
    have hev : e ≤ v := (List.sorted_cons.mp hs).1 v (List.mem_cons_self _ _)
    rw [runsNat]
    by_cases hc : v > e + 1
    · rw [if_pos hc, covers_cons, ih v v x (le_refl _) hs2]
      simp only [NewValueRange, List.mem_cons]
      constructor
      · rintro (h | h | h)
        · exact Or.inl h
        · exact Or.inr (Or.inl (by omega))
        · exact Or.inr (Or.inr h)
      · rintro (h | h | h)
        · exact Or.inl h
        · exact Or.inr (Or.inl (by omega))
        · exact Or.inr (Or.inr h)
    · rw [if_neg hc, ih b v x (by omega) hs2]
      simp only [List.mem_cons]
      constructor
      · rintro (h | h)
        · by_cases hx : x ≤ e
          · exact Or.inl ⟨h.1, hx⟩
          · exact Or.inr (Or.inl (by omega))
        · exact Or.inr (Or.inr h)
      · rintro (h | h | h)
        · exact Or.inl ⟨h.1, by omega⟩
        · exact Or.inl ⟨by omega, by omega⟩
        · exact Or.inr h

/-- On a strictly ascending list the loop yields ranges that expand to the
interval it started with followed by the values read. -/
theorem expand_runsNat (l : List Nat) :
    ∀ (b e : Nat), b ≤ e → (e :: l).Sorted (· < ·) →
      expand (runsNat b e l) = List.range' b (e + 1 - b) ++ l := by
  induction l with
  | nil =>
    intro b e _ _
    simp [runsNat, expand, NewValueRange]
  | cons v l ih =>
    intro b e hbe hs
    have hs2 : (v :: l).Sorted (· < ·) := (List.sorted_cons.mp hs).2
    have hev : e < v := (List.sorted_cons.mp hs).1 v (List.mem_cons_self _ _)
    rw [runsNat]
    by_cases hc : v > e + 1
    · rw [if_pos hc, expand, ih v v (le_refl _) hs2]
      simp [NewValueRange]
    · rw [if_neg hc, ih b v (by omega) hs2]
      have hv : v = e + 1 := by omega
      have h1 : v + 1 - b = (e + 1 - b) + 1 := by omega
      rw [h1, List.range'_1_concat, List.append_assoc]
      have h2 : b + (e + 1 - b) = v := by omega
      rw [h2]
      rfl

/-- The loop ends every range at the interval end it started with or at a value read. -/
theorem runsNat_fits (l : List Nat) :
    ∀ (b e : Nat), (∀ x ∈ e :: l, x + 1 < 2 ^ 63) → FitsInt64 (runsNat b e l) := by
  induction l with
  | nil =>
    intro b e h r hr
    simp only [runsNat, List.mem_singleton] at hr
    rw [hr]
    exact h e (List.mem_cons_self _ _)
  | cons v l ih =>
    intro b e h r hr
    have hl : ∀ x ∈ v :: l, x + 1 < 2 ^ 63 := fun x hx => h x (List.mem_cons_of_mem _ hx)
    rw [runsNat] at hr
    by_cases hc : v > e + 1
    · rw [if_pos hc] at hr
      rcases List.mem_cons.mp hr with rfl | hr
      · exact h e (List.mem_cons_self _ _)
      · exact ih v v hl r hr
    · rw [if_neg hc] at hr
      exact ih b v hl r hr

/-! ## `ArrayToRanges` and `RangesToArray`: the round trips -/

/-- A list of non-negative integers is a list of naturals read as integers. -/
theorem exists_nat_list (ports : List Int) (h : PortsFitInt64 ports) :
    ∃ l : List Nat, ports = l.map (fun n : Nat => (n : Int)) ∧ ∀ x ∈ l, x + 1 < 2 ^ 63 := by
  induction ports with
  | nil => exact ⟨[], rfl, by simp⟩
  | cons p ps ih =>
    obtain ⟨l, hl, hb⟩ := ih (fun x hx => h x (List.mem_cons_of_mem _ hx))
    obtain ⟨hp0, hp1⟩ := h p (List.mem_cons_self _ _)
    refine ⟨p.toNat :: l, ?_, ?_⟩
    · rw [List.map_cons, ← hl, Int.toNat_of_nonneg hp0]
    · intro x hx
      rcases List.mem_cons.mp hx with rfl | hx
      · omega
      · exact hb x hx

/-- On naturals below the `int64` bound `ArrayToRanges` yields a canonical
range set below the bound that covers exactly the values of the list. -/
theorem ArrayToRanges_natCast_spec (l : List Nat) (hl : ∀ x ∈ l, x + 1 < 2 ^ 63) :
    IsCanonical (ArrayToRanges (l.map (fun n : Nat => (n : Int)))) ∧
      FitsInt64 (ArrayToRanges (l.map (fun n : Nat => (n : Int)))) ∧
      ∀ x, Covers (ArrayToRanges (l.map (fun n : Nat => (n : Int)))) x ↔ x ∈ l := by
  rcases hS : l.insertionSort (· ≤ ·) with _ | ⟨p0, rest⟩
  · have hnil : l = [] := by
      have := List.length_insertionSort (· ≤ ·) l
      rw [hS] at this
      exact List.length_eq_zero.mp this.symm
    rw [ArrayToRanges_natCast_nil l hS, hnil]
    exact ⟨isCanonical_nil, by intro r hr; simp at hr, fun x => by simp [covers_nil]⟩
  · have hsorted : (p0 :: rest).Sorted (· ≤ ·) := hS ▸ List.sorted_insertionSort (· ≤ ·) l
    have hmem : ∀ x, x ∈ p0 :: rest ↔ x ∈ l := fun x => by
      rw [← hS]; exact List.mem_insertionSort (· ≤ ·)
    rw [ArrayToRanges_natCast l p0 rest hS hl]
    refine ⟨runsNat_canonical rest p0 p0 (le_refl _) hsorted, ?_, ?_⟩
    · exact runsNat_fits rest p0 p0 (fun x hx => hl x ((hmem x).mp hx))
    · intro x
      rw [runsNat_covers rest p0 p0 x (le_refl _) hsorted, ← hmem x, List.mem_cons]
      constructor
      · rintro (h | h)
        · exact Or.inl (by omega)
        · exact Or.inr h
      · rintro (h | h)
        · exact Or.inl (by omega)
        · exact Or.inr h

/-- On a strictly ascending list of naturals below the `int64` bound,
expanding the ranges of `ArrayToRanges` gives the list back. -/
theorem RangesToArray_ArrayToRanges_natCast (l : List Nat) (hs : l.Sorted (· < ·))
    (hl : ∀ x ∈ l, x + 1 < 2 ^ 63) :
    RangesToArray (ArrayToRanges (l.map (fun n : Nat => (n : Int)))) =
      l.map (fun n : Nat => (n : Int)) := by
  obtain ⟨hcan, hfit, _⟩ := ArrayToRanges_natCast_spec l hl
  rw [RangesToArray_eq_expand _ hcan.1 hfit]
  have hle : l.Sorted (· ≤ ·) := List.Pairwise.imp (fun h => Nat.le_of_lt h) hs
  have hS : l.insertionSort (· ≤ ·) = l := List.Sorted.insertionSort_eq hle
  cases l with
  | nil =>
    rw [ArrayToRanges_natCast_nil [] hS]
    rfl
  | cons p0 rest =>
    rw [ArrayToRanges_natCast (p0 :: rest) p0 rest hS hl, expand_runsNat rest p0 p0 (le_refl _) hs]
    simp

/-- C10 (as stated, refuted): the sorted list `[5, 5]` comes back as `[5]`,
and the sorted list `[-1, 0]` comes back as `[0, 0]`. -/
theorem RangesToArray_ArrayToRanges_sorted_counterexample :
    (List.Sorted (· ≤ ·) [(5 : Int), 5] ∧ RangesToArray (ArrayToRanges [5, 5]) = [5]) ∧
      (List.Sorted (· < ·) [(-1 : Int), 0] ∧ RangesToArray (ArrayToRanges [-1, 0]) = [0, 0]) := by
  refine ⟨⟨by decide, by decide!⟩, ⟨by decide, by decide!⟩⟩

/-- On a strictly ascending list of non-negative exact `int64` values,
expanding the ranges of `ArrayToRanges` gives the list back. -/
theorem roundtrip_of_sorted (P : List Int) (hs : P.Sorted (· < ·)) (hb : PortsFitInt64 P) :
    RangesToArray (ArrayToRanges P) = P := by
  obtain ⟨l, hP, hl⟩ := exists_nat_list P hb
  subst hP
  apply RangesToArray_ArrayToRanges_natCast l _ hl
  have := List.pairwise_map.mp hs
  exact List.Pairwise.imp (fun h => by exact_mod_cast h) this

/-- On non-negative exact `int64` values `ArrayToRanges` yields a canonical range set. -/
theorem ArrayToRanges_canonical (P : List Int) (hb : PortsFitInt64 P) :
    IsCanonical (ArrayToRanges P) := by
  obtain ⟨l, hP, hl⟩ := exists_nat_list P hb
  subst hP
  exact (ArrayToRanges_natCast_spec l hl).1

/-- C10 (amended): for every strictly ascending list `P` of non-negative
integers (each, with its successor, an exact `int64`),
`RangesToArray(ArrayToRanges(P))` equals `P`. -/
theorem RangesToArray_ArrayToRanges (P : List Int) (hs : P.Sorted (· < ·))
    (hb : PortsFitInt64 P) : RangesToArray (ArrayToRanges P) = P :=
  roundtrip_of_sorted P hs hb

/-- C10 (amended), on a concrete input. -/
theorem RangesToArray_ArrayToRanges_witness :
    RangesToArray (ArrayToRanges [31000, 31001, 31002, 31007, 31009]) =
      [31000, 31001, 31002, 31007, 31009] :=
  RangesToArray_ArrayToRanges [31000, 31001, 31002, 31007, 31009] (by decide) (by decide)

/-- The ports of a range set below the `int64` bound are below the bound. -/
theorem expand_fits (R : List Value_Range) (h2 : FitsInt64 R) :
    ∀ x ∈ expand R, x + 1 < 2 ^ 63 := by
  intro x hx
  obtain ⟨r, hr, _, he⟩ := (mem_expand R x).mp hx
  have := h2 r hr
  omega

/-- C9 (amended): for every list `R` of closed ranges (`Begin ≤ End`, in any
order, possibly overlapping or adjacent) whose every endpoint, with its
successor, is below `2^63`,
`ArrayToRanges(RangesToArray(R))` is the canonicalization of `R`: it is
canonical (ascending, non-overlapping, gaps `≥ 2`), covers the same set of
integers as `R`, and is the only range list with these two properties. -/
theorem ArrayToRanges_RangesToArray_canonicalize (R : List Value_Range)
    (h1 : ∀ r ∈ R, r.Begin ≤ r.End) (h2 : FitsInt64 R) :
    IsCanonicalizationOf R (ArrayToRanges (RangesToArray R)) ∧
      ∀ c, IsCanonicalizationOf R c → c = ArrayToRanges (RangesToArray R) := by
  have hb := expand_fits R h2
  obtain ⟨hcan, _, hcov⟩ := ArrayToRanges_natCast_spec (expand R) hb
  rw [RangesToArray_eq_expand R h1 h2]
  have hspec : IsCanonicalizationOf R
      (ArrayToRanges ((expand R).map (fun n : Nat => (n : Int)))) :=
    ⟨hcan, fun x => by rw [hcov x, mem_expand]⟩
  refine ⟨hspec, ?_⟩
  intro c hc
  apply canonical_unique c _ hc.1 hspec.1
  intro x
  rw [hc.2 x, hspec.2 x]

/-- C9 (amended), on a concrete input: overlapping, adjacent and out-of-order ranges. -/
theorem ArrayToRanges_RangesToArray_canonicalize_witness :
    IsCanonicalizationOf
        [NewValueRange 31007 31010, NewValueRange 31000 31003, NewValueRange 31002 31005,
          NewValueRange 31011 31012]
        (ArrayToRanges (RangesToArray
          [NewValueRange 31007 31010, NewValueRange 31000 31003, NewValueRange 31002 31005,
            NewValueRange 31011 31012])) ∧
      ArrayToRanges (RangesToArray
          [NewValueRange 31007 31010, NewValueRange 31000 31003, NewValueRange 31002 31005,
            NewValueRange 31011 31012]) =
        [NewValueRange 31000 31005, NewValueRange 31007 31012] :=
  ⟨(ArrayToRanges_RangesToArray_canonicalize _ (by decide) (by decide)).1, by decide!⟩

/-! ## `AskForPorts` on a canonical range set -/

/-- A canonical range set expands to a strictly ascending list. -/
theorem expand_sorted (R : List Value_Range) (h : IsCanonical R) :
    (expand R).Sorted (· < ·) := by
  induction R with
  | nil => simp [expand]
  | cons r rs ih =>
    have hrs := ((isCanonical_cons r rs).mp h).2.2
    rw [expand]
    apply List.pairwise_append.mpr
    refine ⟨List.pairwise_lt_range' _ _, ih hrs, ?_⟩
    intro a ha b hb
    have ha2 := List.mem_range'_1.mp ha
    have hb2 := covers_tail_bound r rs b h ((mem_expand rs b).mp hb)
    omega

/-- The ports of a canonical range set below the `int64` bound: strictly
ascending, non-negative exact `int64` values. -/
theorem RangesToArray_sorted (R : List Value_Range) (h : IsCanonical R) (h2 : FitsInt64 R) :
    (RangesToArray R).Sorted (· < ·) ∧ PortsFitInt64 (RangesToArray R) := by
  rw [RangesToArray_eq_expand R h.1 h2]
  constructor
  · apply List.pairwise_map.mpr
    exact List.Pairwise.imp (fun hab => by exact_mod_cast hab) (expand_sorted R h)
  · intro x hx
    obtain ⟨k, hk, rfl⟩ := List.mem_map.mp hx
    have := expand_fits R h2 k hk
    constructor <;> omega

theorem leaving_sublist {α : Type} (l : List α) (s n : Nat) :
    (l.take s ++ l.drop (s + n)).Sublist l := by
  have h1 : (l.drop (s + n)).Sublist (l.drop s) := by
    rw [← List.drop_drop]
    exact List.drop_sublist _ _
  have h2 := List.Sublist.append (List.Sublist.refl (l.take s)) h1
  rwa [List.take_append_drop] at h2

theorem taking_leaving_perm {α : Type} (l : List α) (s n : Nat) :
    ((l.drop s).take n ++ (l.take s ++ l.drop (s + n))).Perm l := by
  have h1 : l = l.take s ++ ((l.drop s).take n ++ (l.drop s).drop n) := by
    rw [List.take_append_drop, List.take_append_drop]
  have h2 : (l.drop s).drop n = l.drop (s + n) := by
    rw [List.drop_drop]
  rw [h2] at h1
  conv_rhs => rw [h1]
  rw [← List.append_assoc, ← List.append_assoc]
  exact List.Perm.append_right _ List.perm_append_comm

/-- C6 (amended): for every count `n`, every state of the random source and
every resource vector whose first "ports" resource is a canonical range set
with every port, and its successor, below `2^63`, holding at least `n` ports,
`AskForPorts(n)`
succeeds; the carved ask is a "ports" ranges resource covering exactly `n`
distinct ports at consecutive positions `s .. s+n-1` of the expanded sorted
port list; the remainder's "ports" entry, in the place of the original, is a
canonical range set holding the original size minus `n` ports; carved and
remaining ports are disjoint and together are exactly the original ports. -/
theorem AskForPorts_carves (n rnd : Nat) (pre post : List Resource) (r : Resource)
    (hpre : ∀ p ∈ pre, p.Name ≠ "ports") (hname : r.Name = "ports")
    (hcan : IsCanonical r.GetRangesRange) (hfit : FitsInt64 r.GetRangesRange)
    (hn : n ≤ portCount r.GetRangesRange) :
    ∃ (s : Nat) (carved remaining : List Value_Range),
      AskForPorts n rnd (pre ++ r :: post) =
        (pre ++ NewRangesResource "ports" remaining :: post,
          some (NewRangesResource "ports" carved), true) ∧
      (RangesToArray r.GetRangesRange).Sorted (· < ·) ∧
      s + n ≤ portCount r.GetRangesRange ∧
      RangesToArray carved = ((RangesToArray r.GetRangesRange).drop s).take n ∧
      portCount carved = n ∧
      (RangesToArray carved).Nodup ∧
      IsCanonical remaining ∧
      portCount remaining = portCount r.GetRangesRange - n ∧
      (∀ x ∈ RangesToArray carved, x ∉ RangesToArray remaining) ∧
      (RangesToArray carved ++ RangesToArray remaining).Perm (RangesToArray r.GetRangesRange) := by
  obtain ⟨hsorted, hports⟩ := RangesToArray_sorted r.GetRangesRange hcan hfit
  have hp : HasPorts n r := ⟨hname, hn⟩
  have hmid : ∀ p ∈ pre, ¬ HasPorts n p := fun p hp1 hp2 => hpre p hp1 hp2.1
  have hloop := AskForPorts_loop_some n rnd (pre ++ r :: post) pre [] r post hmid hp
  simp only [List.nil_append, List.length_nil] at hloop
  have hs := sliceLoc_add_le rnd (RangesToArray r.GetRangesRange).length n hn
  generalize AskForPorts.sliceLoc rnd (RangesToArray r.GetRangesRange).length n = s at hloop hs
  generalize hP : RangesToArray r.GetRangesRange = ports at hloop hs hsorted hports
  have hlen : portCount r.GetRangesRange = ports.length := by unfold portCount; rw [hP]
  have htsub : ((ports.drop s).take n).Sublist ports :=
    (List.take_sublist _ _).trans (List.drop_sublist _ _)
  have hlsub := leaving_sublist ports s n
  have htaking : RangesToArray (ArrayToRanges ((ports.drop s).take n)) = (ports.drop s).take n :=
    roundtrip_of_sorted _ (hsorted.sublist htsub) (fun x hx => hports x (htsub.subset hx))
  have hleaving : RangesToArray (ArrayToRanges (ports.take s ++ ports.drop (s + n))) =
      ports.take s ++ ports.drop (s + n) :=
    roundtrip_of_sorted _ (hsorted.sublist hlsub) (fun x hx => hports x (hlsub.subset hx))
  have hperm := taking_leaving_perm ports s n
  have hnodup : ((ports.drop s).take n ++ (ports.take s ++ ports.drop (s + n))).Nodup :=
    hperm.nodup_iff.mpr hsorted.nodup
  refine ⟨s, ArrayToRanges ((ports.drop s).take n),
    ArrayToRanges (ports.take s ++ ports.drop (s + n)), hloop, hsorted, ?_, htaking, ?_, ?_, ?_, ?_,
    ?_, ?_⟩
  · rw [hlen]; exact hs
  · unfold portCount
    rw [htaking, List.length_take, List.length_drop]
    omega
  · rw [htaking]
    exact (List.nodup_append.mp hnodup).1
  · exact ArrayToRanges_canonical _ (fun x hx => hports x (hlsub.subset hx))
  · unfold portCount
    rw [hleaving, hP, List.length_append, List.length_take, List.length_drop]
    omega
  · rw [htaking, hleaving]
    intro x hx hx2
    exact (List.nodup_append.mp hnodup).2.2 hx hx2
  · rw [htaking, hleaving]
    exact hperm

/-- C6 (amended), on a concrete input: the ranges `[[31000,31005],[31007,31010]]` behind
a scalar entry and a count of 3; the remainder is canonical and holds 7 ports. -/
theorem AskForPorts_carves_witness :
    ∃ (carved remaining : List Value_Range),
      AskForPorts 3 5 [NewScalarResource "cpus" 4,
          NewRangesResource "ports" [NewValueRange 31000 31005, NewValueRange 31007 31010]] =
        ([NewScalarResource "cpus" 4, NewRangesResource "ports" remaining],
          some (NewRangesResource "ports" carved), true) ∧
      portCount carved = 3 ∧ IsCanonical remaining ∧ portCount remaining = 7 := by
  obtain ⟨_, carved, remaining, h1, _, _, _, h2, _, h3, h4, _, _⟩ :=
    AskForPorts_carves 3 5 [NewScalarResource "cpus" 4] []
      (NewRangesResource "ports" [NewValueRange 31000 31005, NewValueRange 31007 31010])
      (by decide) rfl
      (by simp [IsCanonical, NewRangesResource, Resource.GetRangesRange, NewValueRange])
      (by decide) (by decide)
  exact ⟨carved, remaining, h1, h2, h3, h4⟩

/-- C5, on a concrete input: an ask of cpus=1 against cpus=4 lowers the sum by 1. -/
theorem AskForScalar_spec_witness :
    (AskForScalar "cpus" 1 [NewScalarResource "mem" 512, NewScalarResource "cpus" 4]).2.2 = true ∧
      scalarSum "cpus"
          (AskForScalar "cpus" 1 [NewScalarResource "mem" 512, NewScalarResource "cpus" 4]).1 =
        scalarSum "cpus" [NewScalarResource "mem" 512, NewScalarResource "cpus" 4] - 1 := by
  have hs : (AskForScalar "cpus" 1
      [NewScalarResource "mem" 512, NewScalarResource "cpus" 4]).2.2 = true := by decide!
  obtain ⟨_, _, _, _, _, _, _, _, h⟩ :=
    (AskForScalar_spec "cpus" 1 [NewScalarResource "mem" 512, NewScalarResource "cpus" 4]).2.1 hs
  exact ⟨hs, h⟩

/-! ## Reconciliation: theorems -/

/-- One node visited at a clock that reads `now` throughout. -/
theorem visit_at (now : Int) (v : ReconcileVars) (node : ReconcilingNode) :
    (GetTasksToReconcile.visit (fun _ => now) v node).2 = markAsked now node ∧
      (GetTasksToReconcile.visit (fun _ => now) v node).1.tasksToReconcile =
        v.tasksToReconcile ++ (if Due now node then [node.GetTaskStatus] else []) := by
  unfold GetTasksToReconcile.visit markAsked Due
  by_cases h1 : node.reconciled = false
  · by_cases h2 : now - node.lastAskedToReconcile > 5 * 10 ^ 9
    · rw [if_pos h1, if_pos h2, if_pos ⟨h1, h2⟩, if_pos ⟨h1, h2⟩]
      exact ⟨rfl, rfl⟩
    · rw [if_pos h1, if_neg h2, if_neg (fun h => h2 h.2), if_neg (fun h => h2 h.2),
        List.append_nil]
      exact ⟨rfl, rfl⟩
  · rw [if_neg h1, if_neg (fun h => h1 h.1), if_neg (fun h => h1 h.1), List.append_nil]
    exact ⟨rfl, rfl⟩

/-- The nodes of one cluster visited at a clock that reads `now` throughout. -/
theorem nodes_at (now : Int) (l : List (String × ReconcilingNode)) :
    ∀ (v : ReconcileVars),
      (GetTasksToReconcile.nodes (fun _ => now) v l).2 =
          l.map (fun n => (n.1, markAsked now n.2)) ∧
        (GetTasksToReconcile.nodes (fun _ => now) v l).1.tasksToReconcile =
          v.tasksToReconcile ++
            ((l.map (fun n => n.2)).filter (fun n => Due now n)).map
              ReconcilingNode.GetTaskStatus := by
  induction l with
  | nil => intro v; simp [GetTasksToReconcile.nodes]
  | cons p rest ih =>
    intro v
    obtain ⟨uuid, node⟩ := p
    obtain ⟨hv2, hv1⟩ := visit_at now v node
    obtain ⟨ih2, ih1⟩ := ih (GetTasksToReconcile.visit (fun _ => now) v node).1
    simp only [GetTasksToReconcile.nodes, ih2, ih1, hv2, hv1, List.map_cons, List.filter_cons]
    by_cases hd : Due now node
    · simp [hd]
    · simp [hd]

/-- The clusters visited at a clock that reads `now` throughout. -/
theorem clusters_at (now : Int) (cs : List (String × FrameworkRiakCluster)) :
    ∀ (v : ReconcileVars),
      (GetTasksToReconcile.clusters (fun _ => now) v cs).2 =
          cs.map (fun c => (c.1, { c.2 with
            Nodes := c.2.Nodes.map (fun n => (n.1, markAsked now n.2)) })) ∧
        (GetTasksToReconcile.clusters (fun _ => now) v cs).1.tasksToReconcile =
          v.tasksToReconcile ++
            ((cs.flatMap (fun c => c.2.Nodes.map (fun n => n.2))).filter
              (fun n => Due now n)).map ReconcilingNode.GetTaskStatus := by
  induction cs with
  | nil => intro v; simp [GetTasksToReconcile.clusters]
  | cons c rest ih =>
    intro v
    obtain ⟨name, cluster⟩ := c
    obtain ⟨hn2, hn1⟩ := nodes_at now cluster.Nodes v
    obtain ⟨ih2, ih1⟩ := ih (GetTasksToReconcile.nodes (fun _ => now) v cluster.Nodes).1
    simp only [GetTasksToReconcile.clusters, ih2, ih1, hn2, hn1, List.map_cons,
      List.flatMap_cons, List.filter_append, List.map_append, List.append_assoc]
    exact ⟨trivial, trivial⟩

/-- The nodes of the state after a call are the nodes before it, marked. -/
theorem flatMap_marked (now : Int) (cs : List (String × FrameworkRiakCluster)) :
    (cs.map (fun c => (c.1, ({ c.2 with
        Nodes := c.2.Nodes.map (fun n => (n.1, markAsked now n.2)) } :
          FrameworkRiakCluster)))).flatMap (fun c => c.2.Nodes.map (fun n => n.2)) =
      (cs.flatMap (fun c => c.2.Nodes.map (fun n => n.2))).map (markAsked now) := by
  induction cs with
  | nil => rfl
  | cons c rest ih =>
    simp only [List.map_cons, List.flatMap_cons, List.map_append, ih, List.map_map]
    rfl

/-- A node that was due at `now` is not due again within 5 seconds of `now`. -/
theorem filter_due_marked (now now2 : Int) (h : now2 - now ≤ 5 * 10 ^ 9)
    (l : List ReconcilingNode) :
    (((l.map (markAsked now)).filter (fun n => Due now2 n)).map ReconcilingNode.GetTaskStatus) =
      (l.filter (fun n => ¬ Due now n ∧ Due now2 n)).map ReconcilingNode.GetTaskStatus := by
  induction l with
  | nil => rfl
  | cons n rest ih =>
    simp only [List.map_cons, List.filter_cons]
    by_cases hd : Due now n
    · have hm : ¬ Due now2 (markAsked now n) := by
        unfold markAsked
        rw [if_pos hd]
        unfold Due
        simp only [not_and, not_lt]
        intro _
        omega
      simp only [hm, hd, decide_False, not_true_eq_false, false_and]
      exact ih
    · have hm : markAsked now n = n := by unfold markAsked; rw [if_neg hd]
      rw [hm]
      by_cases hd2 : Due now2 n
      · simp only [hd, hd2, not_false_eq_true, and_self, decide_True, if_true, List.map_cons, ih]
      · simp only [hd, hd2, and_false, decide_False]
        exact ih

/-- C11: for every scheduler state and every time `now` (the clock reads
`now` throughout the call), `GetTasksToReconcile` returns the last-known task
status of exactly the nodes with `reconciled = false` and
`now - lastAskedToReconcile > 5 s`, in the order visited; it sets
`lastAskedToReconcile` of each returned node to `now` and changes nothing
else of it, and leaves every other node, every uuid and every cluster name
unchanged; hence a second call at a time `now2` at most 5 seconds later
returns the status of no node returned by the first call: it returns exactly
the statuses of the nodes the first call did not return that are due at
`now2`. -/
theorem GetTasksToReconcile_spec (now : Int) (tick : Nat) (sc : SchedulerCore) :
    (GetTasksToReconcile (fun _ => now) tick sc).1 =
        (sc.nodes.filter (fun n => Due now n)).map ReconcilingNode.GetTaskStatus ∧
      (GetTasksToReconcile (fun _ => now) tick sc).2.1.schedulerState.Clusters =
        sc.schedulerState.Clusters.map (fun c => (c.1, { c.2 with
          Nodes := c.2.Nodes.map (fun n => (n.1, markAsked now n.2)) })) ∧
      (∀ node, Due now node →
        markAsked now node = { node with lastAskedToReconcile := now }) ∧
      (∀ node, ¬ Due now node → markAsked now node = node) ∧
      ∀ (now2 : Int) (tick2 : Nat), now2 - now ≤ 5 * 10 ^ 9 →
        (GetTasksToReconcile (fun _ => now2) tick2
            (GetTasksToReconcile (fun _ => now) tick sc).2.1).1 =
          (sc.nodes.filter (fun n => ¬ Due now n ∧ Due now2 n)).map
            ReconcilingNode.GetTaskStatus := by
  have hfirst := clusters_at now sc.schedulerState.Clusters
    { tick := tick, frnDict := sc.frnDict, tasksToReconcile := [] }
  have hstate : (GetTasksToReconcile (fun _ => now) tick sc).2.1.schedulerState.Clusters =
      sc.schedulerState.Clusters.map (fun c => (c.1, { c.2 with
        Nodes := c.2.Nodes.map (fun n => (n.1, markAsked now n.2)) })) := hfirst.1
  refine ⟨?_, hstate, ?_, ?_, ?_⟩
  · have := hfirst.2
    simp only [List.nil_append] at this
    exact this
  · intro node hd
    unfold markAsked
    rw [if_pos hd]
  · intro node hd
    unfold markAsked
    rw [if_neg hd]
  · intro now2 tick2 h
    have hsecond : (GetTasksToReconcile (fun _ => now2) tick2
          (GetTasksToReconcile (fun _ => now) tick sc).2.1).1 =
        (((GetTasksToReconcile (fun _ => now) tick sc).2.1.schedulerState.Clusters.flatMap
          (fun c => c.2.Nodes.map (fun n => n.2))).filter (fun n => Due now2 n)).map
            ReconcilingNode.GetTaskStatus := by
      have := (clusters_at now2
        (GetTasksToReconcile (fun _ => now) tick sc).2.1.schedulerState.Clusters
        { tick := tick2, frnDict := (GetTasksToReconcile (fun _ => now) tick sc).2.1.frnDict,
          tasksToReconcile := [] }).2
      simp only [List.nil_append] at this
      exact this
    rw [hsecond, hstate, flatMap_marked, filter_due_marked now now2 h]
    rfl

/-- C11, on a concrete input: at time 10 s, of three nodes (never asked; asked
at 6 s; reconciled) the call returns the status of the first only, and a call
5 seconds later returns the status of the second only. -/
theorem GetTasksToReconcile_spec_witness :
    (GetTasksToReconcile (fun _ => 10 * 10 ^ 9) 0 exampleScheduler).1 =
        [{ TaskId := "a-1", State := TaskState.TASK_RUNNING }] ∧
      (GetTasksToReconcile (fun _ => 15 * 10 ^ 9) 2
        (GetTasksToReconcile (fun _ => 10 * 10 ^ 9) 0 exampleScheduler).2.1).1 =
        [{ TaskId := "b-1", State := TaskState.TASK_STAGING }] :=
  ⟨(GetTasksToReconcile_spec (10 * 10 ^ 9) 0 exampleScheduler).1.trans (by decide!),
    ((GetTasksToReconcile_spec (10 * 10 ^ 9) 0 exampleScheduler).2.2.2.2 (15 * 10 ^ 9) 2
      (by decide)).trans (by decide!)⟩

/-! ## The executor: theorems -/

theorem foldl_send (l : List Int) :
    ∀ (ports : List Int), l.foldl (fun ports port => ports ++ [port]) ports = ports ++ l := by
  induction l with
  | nil => intro ports; simp
  | cons a l ih => intro ports; simp [ih]

theorem foldl_append_ranges (rs : List Resource) :
    ∀ (ports : List Int),
      rs.foldl (fun ports resource => ports ++ RangesToArray resource.GetRangesRange) ports =
        ports ++ rs.flatMap (fun r => RangesToArray r.GetRangesRange) := by
  induction rs with
  | nil => intro ports; simp
  | cons r rs ih =>
    intro ports
    rw [List.foldl_cons, ih, List.flatMap_cons, List.append_assoc]

theorem foldl_send_ranges (rs : List Resource) (ports : List Int) :
    rs.foldl (fun ports resource =>
        (RangesToArray resource.GetRangesRange).foldl (fun ports port => ports ++ [port]) ports)
      ports = ports ++ rs.flatMap (fun r => RangesToArray r.GetRangesRange) := by
  have hf : (fun (ports : List Int) (resource : Resource) =>
      (RangesToArray resource.GetRangesRange).foldl (fun ports port => ports ++ [port]) ports) =
      (fun ports resource => ports ++ RangesToArray resource.GetRangesRange) := by
    funext ports resource
    exact foldl_send _ _
  rw [hf]
  exact foldl_append_ranges rs ports

/-- The channel of `portIter` carries the offered ports. -/
theorem portIter_eq_offeredPorts (resources : List Resource) :
    portIter resources = offeredPorts resources := by
  unfold portIter offeredPorts FilterResources
  rw [foldl_send_ranges]
  rfl

/-- The offered ports depend on the resources named "ports" only. -/
theorem offeredPorts_filter (resources : List Resource) :
    offeredPorts (resources.filter (fun r => r.Name = "ports")) = offeredPorts resources := by
  unfold offeredPorts
  rw [List.filter_filter]
  simp

/-- Where every range of the "ports" resources is a closed range of exact
`int64` values, the offered ports are the ports of each range in ascending
order, range by range. -/
theorem offeredPorts_eq_expand (resources : List Resource)
    (h : ∀ r ∈ resources, r.Name = "ports" →
      (∀ q ∈ r.GetRangesRange, q.Begin ≤ q.End) ∧ FitsInt64 r.GetRangesRange) :
    offeredPorts resources =
      ((resources.filter (fun r => r.Name = "ports")).flatMap
        (fun r => expand r.GetRangesRange)).map (fun n : Nat => (n : Int)) := by
  unfold offeredPorts
  induction resources with
  | nil => rfl
  | cons r rs ih =>
    have ih2 := ih (fun x hx => h x (List.mem_cons_of_mem _ hx))
    by_cases hr : r.Name = "ports"
    · obtain ⟨h1, h2⟩ := h r (List.mem_cons_self _ _) hr
      simp only [List.filter_cons, hr, decide_True, if_true, List.flatMap_cons, List.map_append,
        ih2, RangesToArray_eq_expand _ h1 h2]
    · simp only [List.filter_cons, hr, decide_False]
      exact ih2

/-- The four receives of `RiakNode.Run`, on the channel of `portIter`: each
binding is the offered port at its position, or the zero value past the end. -/
theorem Run_bindings (riakNode : RiakNode) :
    [riakNode.Run.vars.HTTPPort, riakNode.Run.vars.PBPort, riakNode.Run.vars.HandoffPort,
        riakNode.Run.rexPort] =
      ((offeredPorts riakNode.taskInfo.Resources) ++ List.replicate 4 0).take 4 := by
  unfold RiakNode.Run RiakNode.configureRiak
  rw [portIter_eq_offeredPorts]
  generalize offeredPorts riakNode.taskInfo.Resources = ps
  rcases ps with _ | ⟨a, _ | ⟨b, _ | ⟨c, _ | ⟨d, rest⟩⟩⟩⟩ <;> simp [recv]

/-- C12: for every task resource vector whose resources named "ports", taken
in vector order and each expanded by `RangesToArray` (range by range, every
range in ascending order), yield the ports `p0, p1, p2, p3, ...`, the executor
renders the configuration with `HTTPPort = p0`, `PBPort = p1` and
`HandoffPort = p2` and starts the explorer on `p3`; the resources with any
other name do not affect the binding: leaving them out gives the same
assignment. -/
theorem Run_binds_ports_in_order (riakNode : RiakNode) (p0 p1 p2 p3 : Int) (rest : List Int)
    (h : offeredPorts riakNode.taskInfo.Resources = p0 :: p1 :: p2 :: p3 :: rest) :
    riakNode.Run.vars.HTTPPort = p0 ∧ riakNode.Run.vars.PBPort = p1 ∧
      riakNode.Run.vars.HandoffPort = p2 ∧ riakNode.Run.rexPort = p3 ∧
      riakNode.Run = RiakNode.Run { riakNode with
        taskInfo := { riakNode.taskInfo with
          Resources := riakNode.taskInfo.Resources.filter (fun r => r.Name = "ports") } } := by
  have hb := Run_bindings riakNode
  rw [h] at hb
  simp only [List.cons_append, List.take_succ_cons, List.take_zero, List.cons.injEq,
    and_true] at hb
  obtain ⟨h0, h1, h2, h3⟩ := hb
  refine ⟨h0, h1, h2, h3, ?_⟩
  unfold RiakNode.Run
  simp only [portIter_eq_offeredPorts, offeredPorts_filter]
  rfl

/-- C12, on a concrete input: two "ports" resources of two ports each, with
scalar resources before and between them. -/
theorem Run_binds_ports_in_order_witness :
    (RiakNode.Run examplePortsNode).vars.HTTPPort = 31000 ∧
      (RiakNode.Run examplePortsNode).vars.PBPort = 31001 ∧
      (RiakNode.Run examplePortsNode).vars.HandoffPort = 31005 ∧
      (RiakNode.Run examplePortsNode).rexPort = 31006 :=
  have h := Run_binds_ports_in_order examplePortsNode 31000 31001 31005 31006 [] (by decide!)
  ⟨h.1, h.2.1, h.2.2.1, h.2.2.2.1⟩

/-- C13: for every task resource vector whose "ports" resources expand to
`m < 4` ports, the four bindings (HTTP, peer-binary, hand-off, explorer), in
this order, are the `m` offered ports followed by `4 - m` zeros: the first
`m` bindings receive the offered ports in order and every remaining binding
receives port 0. -/
theorem Run_pads_missing_ports_with_zero (riakNode : RiakNode)
    (h : (offeredPorts riakNode.taskInfo.Resources).length < 4) :
    [riakNode.Run.vars.HTTPPort, riakNode.Run.vars.PBPort, riakNode.Run.vars.HandoffPort,
        riakNode.Run.rexPort] =
      offeredPorts riakNode.taskInfo.Resources ++
        List.replicate (4 - (offeredPorts riakNode.taskInfo.Resources).length) 0 := by
  rw [Run_bindings]
  generalize offeredPorts riakNode.taskInfo.Resources = ps at h
  rcases ps with _ | ⟨a, _ | ⟨b, _ | ⟨c, _ | ⟨d, rest⟩⟩⟩⟩
  · rfl
  · rfl
  · rfl
  · rfl
  · simp only [List.length_cons] at h
    omega

/-- C13, on a concrete input: one "ports" resource of two ports. -/
theorem Run_pads_missing_ports_with_zero_witness :
    [(RiakNode.Run exampleTwoPortsNode).vars.HTTPPort,
        (RiakNode.Run exampleTwoPortsNode).vars.PBPort,
        (RiakNode.Run exampleTwoPortsNode).vars.HandoffPort,
        (RiakNode.Run exampleTwoPortsNode).rexPort] = [31000, 31001, 0, 0] :=
  (Run_pads_missing_ports_with_zero exampleTwoPortsNode (by decide!)).trans (by decide!)

/-! ## The `int64` bound: where the round trip breaks -/

/-- C9 (as stated, refuted): the single closed range `[2^63-1, 2^63-1]` comes
back from `ArrayToRanges(RangesToArray(R))` twice, which is not canonical: the
test `val > fakeret[..][1]+1` overflows at the largest `int64`. -/
theorem ArrayToRanges_RangesToArray_int64_counterexample :
    (∀ r ∈ [NewValueRange (2 ^ 63 - 1) (2 ^ 63 - 1)], r.Begin ≤ r.End) ∧
      ArrayToRanges (RangesToArray [NewValueRange (2 ^ 63 - 1) (2 ^ 63 - 1)]) =
        [NewValueRange (2 ^ 63 - 1) (2 ^ 63 - 1), NewValueRange (2 ^ 63 - 1) (2 ^ 63 - 1)] ∧
      ¬ IsCanonicalizationOf [NewValueRange (2 ^ 63 - 1) (2 ^ 63 - 1)]
        (ArrayToRanges (RangesToArray [NewValueRange (2 ^ 63 - 1) (2 ^ 63 - 1)])) := by
  have h : ArrayToRanges (RangesToArray [NewValueRange (2 ^ 63 - 1) (2 ^ 63 - 1)]) =
      [NewValueRange (2 ^ 63 - 1) (2 ^ 63 - 1), NewValueRange (2 ^ 63 - 1) (2 ^ 63 - 1)] := by
    decide!
  refine ⟨by decide, h, ?_⟩
  rw [h]
  intro hc
  have h2 := hc.1.2
  simp [NewValueRange] at h2

/-- C6 (as stated, refuted): the first "ports" resource is the canonical range
set `[[2^63-2, 2^63-1]]` of two ports and the count is 1. The asker carves the
port `2^63-2`, and the remainder's "ports" entry is the range
`[2^63-1, 2^63-1]` twice: not canonical, and expanding to two ports, not one. -/
theorem AskForPorts_int64_counterexample :
    IsCanonical [NewValueRange (2 ^ 63 - 2) (2 ^ 63 - 1)] ∧
      portCount [NewValueRange (2 ^ 63 - 2) (2 ^ 63 - 1)] = 2 ∧
      (∀ rnd, AskForPorts 1 rnd
          [NewRangesResource "ports" [NewValueRange (2 ^ 63 - 2) (2 ^ 63 - 1)]] =
        ([NewRangesResource "ports"
            [NewValueRange (2 ^ 63 - 1) (2 ^ 63 - 1), NewValueRange (2 ^ 63 - 1) (2 ^ 63 - 1)]],
          some (NewRangesResource "ports" [NewValueRange (2 ^ 63 - 2) (2 ^ 63 - 2)]), true)) ∧
      ¬ IsCanonical
        [NewValueRange (2 ^ 63 - 1) (2 ^ 63 - 1), NewValueRange (2 ^ 63 - 1) (2 ^ 63 - 1)] ∧
      portCount
        [NewValueRange (2 ^ 63 - 1) (2 ^ 63 - 1), NewValueRange (2 ^ 63 - 1) (2 ^ 63 - 1)] = 2 := by
  refine ⟨by simp [IsCanonical, NewValueRange], by decide!, ?_, ?_, by decide!⟩
  · intro rnd
    have hp : HasPorts 1 (NewRangesResource "ports" [NewValueRange (2 ^ 63 - 2) (2 ^ 63 - 1)]) := by
      decide!
    have hl := AskForPorts_loop_some 1 rnd
      [NewRangesResource "ports" [NewValueRange (2 ^ 63 - 2) (2 ^ 63 - 1)]] [] []
      (NewRangesResource "ports" [NewValueRange (2 ^ 63 - 2) (2 ^ 63 - 1)]) [] (by simp) hp
    have hR : RangesToArray
        (NewRangesResource "ports" [NewValueRange (2 ^ 63 - 2) (2 ^ 63 - 1)]).GetRangesRange =
        [2 ^ 63 - 2, 2 ^ 63 - 1] := by decide!
    have hs : AskForPorts.sliceLoc rnd 2 1 = 0 := by
      have := sliceLoc_lt rnd 2 1 (by omega)
      omega
    rw [hR] at hl
    simp only [List.nil_append, List.length_nil, List.length_cons, Nat.zero_add,
      Nat.reduceAdd, hs] at hl
    unfold AskForPorts
    simp only []
    rw [hl]
    decide!
  · intro hc
    have h2 := hc.2
    simp [NewValueRange] at h2

end RiakMesos
